import Mathlib

/-!
# Verification of the `quaddy` quadtree core

Shallow embedding of the quadtree core of `src/examples/quad2.rs` (the variant
with a `query` operation and a `Circle` region) and of `src/examples/quad1.rs`
(the second variant), with exact rational coordinates in place of `f32`.

The Rust type `QTree` owns `children: Option<Box<[QTree; 4]>>`.  We encode that
recursive ownership with two constructors: `node` for a node whose `children`
field is `None`, and `nodeC` for a node whose `children` field is
`Some([c0, c1, c2, c3])`.  All other fields are carried verbatim.

`QTree::insert` in the source can recurse without bound (capacity 0), so the
embedding `insertFuel` is indexed by fuel and returns `none` when the fuel runs
out or when the source would panic on `children.unwrap()`; `some (t, b)` means
the call terminates with return value `b`, leaving the tree in state `t`.
-/

namespace Quaddy

/-- A 2-D point (`struct Point`, identical in both sources). -/
structure Point where
  x : ℚ
  y : ℚ
deriving DecidableEq, Repr

/-- Axis-aligned rectangle: center `(x, y)`, half-extents `w` and `h`
(`struct Rect`, identical in both sources). -/
structure Rect where
  x : ℚ
  y : ℚ
  w : ℚ
  h : ℚ
deriving DecidableEq, Repr

/-- `Rect::contains` from quad2.rs lines 47-52: half-open membership test. -/
def Rect.contains (s : Rect) (p : Point) : Bool :=
  decide (p.x ≥ s.x - s.w) && decide (p.x < s.x + s.w) &&
  decide (p.y ≥ s.y - s.h) && decide (p.y < s.y + s.h)

/-- `Rect::intersects` from quad2.rs lines 54-59. -/
def Rect.intersects (s : Rect) (rhs : Rect) : Bool :=
  !(decide (rhs.x - rhs.w > s.x + s.w) || decide (rhs.x + rhs.w < s.x - s.w) ||
    decide (rhs.y - rhs.h > s.y + s.h) || decide (rhs.y + rhs.h < s.y - s.h))

/-- `struct Circle` from quad2.rs lines 62-66. -/
structure Circle where
  x : ℚ
  y : ℚ
  r : ℚ
deriving DecidableEq, Repr

/-- `Circle::contains` from quad2.rs lines 73-76. -/
def Circle.contains (c : Circle) (p : Point) : Bool :=
  decide ((p.x - c.x) ^ 2 + (p.y - c.y) ^ 2 ≤ c.r * c.r)

/-- `Circle::intersects` from quad2.rs lines 78-95.  Note that the source
divides `region.w` and `region.h` by 2 before using them. -/
def Circle.intersects (c : Circle) (region : Rect) : Bool :=
  let xdist := |region.x - c.x|
  let ydist := |region.y - c.y|
  let r := c.r
  let w := region.w / 2
  let h := region.h / 2
  let edges := (xdist - w) ^ 2 + (ydist - h) ^ 2
  if xdist > r + w ∨ ydist > r + h then false
  else if xdist ≤ w ∨ ydist ≤ h then true
  else decide (edges ≤ r * r)

/-- The quadtree node (`struct QTree` of quad2.rs lines 98-104).  `node`
stands for `children = None`, `nodeC` for `children = Some([c0, c1, c2, c3])`;
the child order is the construction order of `subdivide`. -/
inductive QTree : Type where
  | node (boundary : Rect) (cap : Nat) (points : List Point) (divided : Bool) : QTree
  | nodeC (boundary : Rect) (cap : Nat) (points : List Point) (divided : Bool)
      (c0 c1 c2 c3 : QTree) : QTree
deriving DecidableEq, Repr

namespace QTree

/-- Field accessor for `boundary`. -/
def boundary : QTree → Rect
  | node b _ _ _ => b
  | nodeC b _ _ _ _ _ _ _ => b

/-- Field accessor for `cap`. -/
def cap : QTree → Nat
  | node _ c _ _ => c
  | nodeC _ c _ _ _ _ _ _ => c

/-- Field accessor for `points`. -/
def points : QTree → List Point
  | node _ _ ps _ => ps
  | nodeC _ _ ps _ _ _ _ _ => ps

/-- Field accessor for `divided`. -/
def divided : QTree → Bool
  | node _ _ _ d => d
  | nodeC _ _ _ d _ _ _ _ => d

/-- Field accessor for `children`, as the original `Option` of four nodes. -/
def children : QTree → Option (QTree × QTree × QTree × QTree)
  | node _ _ _ _ => none
  | nodeC _ _ _ _ c0 c1 c2 c3 => some (c0, c1, c2, c3)

/-- `QTree::new` from quad2.rs lines 107-115: a leaf with empty buffer. -/
def new (boundary : Rect) (cap : Nat) : QTree :=
  node boundary cap [] false

/-- Boundary of the first child built by `subdivide` (quad2.rs line 123). -/
def quadrant0 (b : Rect) : Rect := ⟨b.x + b.w / 2, b.y - b.h / 2, b.w / 2, b.h / 2⟩

/-- Boundary of the second child built by `subdivide` (quad2.rs line 124). -/
def quadrant1 (b : Rect) : Rect := ⟨b.x - b.w / 2, b.y - b.h / 2, b.w / 2, b.h / 2⟩

/-- Boundary of the third child built by `subdivide` (quad2.rs line 125). -/
def quadrant2 (b : Rect) : Rect := ⟨b.x + b.w / 2, b.y + b.h / 2, b.w / 2, b.h / 2⟩

/-- Boundary of the fourth child built by `subdivide` (quad2.rs line 126). -/
def quadrant3 (b : Rect) : Rect := ⟨b.x - b.w / 2, b.y + b.h / 2, b.w / 2, b.h / 2⟩

/-- `QTree::subdivide` from quad2.rs lines 117-129: overwrite `children` with
four fresh leaves over the four quadrants and set `divided`.  The `points`,
`boundary` and `cap` fields are untouched. -/
def subdivide : QTree → QTree
  | node b cap ps _ =>
      nodeC b cap ps true (new (quadrant0 b) cap) (new (quadrant1 b) cap)
        (new (quadrant2 b) cap) (new (quadrant3 b) cap)
  | nodeC b cap ps _ _ _ _ _ =>
      nodeC b cap ps true (new (quadrant0 b) cap) (new (quadrant1 b) cap)
        (new (quadrant2 b) cap) (new (quadrant3 b) cap)

/-- `self.points.push(p)` (quad2.rs line 137): append to the own buffer. -/
def pushPoint : QTree → Point → QTree
  | node b c ps dv, p => node b c (ps ++ [p]) dv
  | nodeC b c ps dv c0 c1 c2 c3, p => nodeC b c (ps ++ [p]) dv c0 c1 c2 c3

/-- `QTree::insert` from quad2.rs lines 131-152, indexed by fuel.  `none`
means fuel ran out (the source recursion has not returned yet) or the source
hit `children.as_mut().unwrap()` on a node with `divided` set but no children
(a panic; such states are unreachable).  The child loop threads the mutated
children through, exactly as `iter_mut` does. -/
def insertFuel : Nat → QTree → Point → Option (QTree × Bool)
  | 0, _, _ => none
  | fuel + 1, t, p =>
    if t.boundary.contains p = false then some (t, false)
    else if t.points.length < t.cap then some (t.pushPoint p, true)
    else
      match (if t.divided = false then t.subdivide else t) with
      | node _ _ _ _ => none
      | nodeC b cap ps dv c0 c1 c2 c3 =>
        match insertFuel fuel c0 p with
        | none => none
        | some (c0', r0) =>
          if r0 then some (nodeC b cap ps dv c0' c1 c2 c3, true)
          else
            match insertFuel fuel c1 p with
            | none => none
            | some (c1', r1) =>
              if r1 then some (nodeC b cap ps dv c0' c1' c2 c3, true)
              else
                match insertFuel fuel c2 p with
                | none => none
                | some (c2', r2) =>
                  if r2 then some (nodeC b cap ps dv c0' c1' c2' c3, true)
                  else
                    match insertFuel fuel c3 p with
                    | none => none
                    | some (c3', r3) => some (nodeC b cap ps dv c0' c1' c2' c3', r3)

/-- The point scan of `query` (quad2.rs lines 160-164): push every buffered
point contained in `r` onto `found`, in buffer order. -/
def scanPoints (r : Rect) (ps : List Point) (found : List Point) : List Point :=
  ps.foldl (fun acc p => if r.contains p = true then acc ++ [p] else acc) found

/-- `QTree::query` from quad2.rs lines 154-171, threading the `found` and
`queries` out-parameters.  `none` models the `children.as_ref().unwrap()`
panic on a `divided` node without children (unreachable states). -/
def query : QTree → Rect → List Point → Nat → Option (List Point × Nat)
  | node b _ ps dv, r, found, queries =>
    if b.intersects r = false then some (found, queries + 1)
    else if dv = true then none
    else some (scanPoints r ps found, queries + 1)
  | nodeC b _ ps dv c0 c1 c2 c3, r, found, queries =>
    if b.intersects r = false then some (found, queries + 1)
    else
      let found1 := scanPoints r ps found
      if dv = true then
        match c0.query r found1 (queries + 1) with
        | none => none
        | some (f0, q0) =>
          match c1.query r f0 q0 with
          | none => none
          | some (f1, q1) =>
            match c2.query r f1 q1 with
            | none => none
            | some (f2, q2) => c3.query r f2 q2
      else some (found1, queries + 1)

/-- A whole build sequence: insert the points of `ps` one after the other,
with the same fuel for every call, collecting the returned booleans. -/
def insertMany (fuel : Nat) : QTree → List Point → Option (QTree × List Bool)
  | t, [] => some (t, [])
  | t, p :: ps =>
    match insertFuel fuel t p with
    | none => none
    | some (t1, r) =>
      match insertMany fuel t1 ps with
      | none => none
      | some (t2, rs) => some (t2, r :: rs)

/-- All points stored anywhere in the tree, own buffer first, then the four
children in construction order. -/
def allPoints : QTree → List Point
  | node _ _ ps _ => ps
  | nodeC _ _ ps _ c0 c1 c2 c3 =>
      ps ++ (c0.allPoints ++ (c1.allPoints ++ (c2.allPoints ++ c3.allPoints)))

/-- Height of the ownership tree (a childless node has height 0). -/
def height : QTree → Nat
  | node _ _ _ _ => 0
  | nodeC _ _ _ _ c0 c1 c2 c3 =>
      (max (max c0.height c1.height) (max c2.height c3.height)) + 1

/-- The state invariant maintained by `new` and `insert`: every buffered point
is inside the node's boundary, the buffer never exceeds `cap`, a divided
node's buffer holds exactly `cap` points, the `divided` flag agrees with the
presence of children, and children carry the parent's `cap` over the four
quadrant boundaries. -/
def wf : QTree → Bool
  | node b cap ps dv =>
      ps.all (fun p => b.contains p) && decide (ps.length ≤ cap) && !dv
  | nodeC b cap ps dv c0 c1 c2 c3 =>
      ps.all (fun p => b.contains p) && decide (ps.length ≤ cap) &&
      dv && decide (ps.length = cap) &&
      decide (c0.boundary = quadrant0 b) && decide (c0.cap = cap) && c0.wf &&
      decide (c1.boundary = quadrant1 b) && decide (c1.cap = cap) && c1.wf &&
      decide (c2.boundary = quadrant2 b) && decide (c2.cap = cap) && c2.wf &&
      decide (c3.boundary = quadrant3 b) && decide (c3.cap = cap) && c3.wf

/-- Structural monotonicity: same boundary and capacity, the `divided` flag
only ever rises, and existing children are kept (recursively) rather than
removed or replaced. -/
def structLE : QTree → QTree → Bool
  | node b cap _ dv, node b' cap' _ dv' =>
      decide (b' = b) && decide (cap' = cap) && (!dv || dv')
  | node b cap _ dv, nodeC b' cap' _ dv' _ _ _ _ =>
      decide (b' = b) && decide (cap' = cap) && (!dv || dv')
  | nodeC _ _ _ _ _ _ _ _, node _ _ _ _ => false
  | nodeC b cap _ dv a0 a1 a2 a3, nodeC b' cap' _ dv' b0 b1 b2 b3 =>
      decide (b' = b) && decide (cap' = cap) && (!dv || dv') &&
      structLE a0 b0 && structLE a1 b1 && structLE a2 b2 && structLE a3 b3

/-- A tree is reachable when some sequence of `insert` calls, starting from
`new`, produces it (each call terminating on its own). -/
def Reachable (t : QTree) : Prop :=
  ∃ b cap ps fuel rs, insertMany fuel (new b cap) ps = some (t, rs)

end QTree

/-! ## The quad1.rs variant

`src/examples/quad1.rs` declares `Point`, `Rect` and `QTree` with exactly the
same fields as quad2.rs, so the embedding shares the carrier types and gives
the quad1 operations their own definitions, copied from the quad1 source. -/

namespace Quad1

/-- `Rect::contains` from quad1.rs lines 46-51. -/
def Rect.contains (s : Rect) (p : Point) : Bool :=
  decide (p.x ≥ s.x - s.w) && decide (p.x < s.x + s.w) &&
  decide (p.y ≥ s.y - s.h) && decide (p.y < s.y + s.h)

/-- `Rect::intersects` from quad1.rs lines 53-58. -/
def Rect.intersects (s : Rect) (rhs : Rect) : Bool :=
  !(decide (rhs.x - rhs.w > s.x + s.w) || decide (rhs.x + rhs.w < s.x - s.w) ||
    decide (rhs.y - rhs.h > s.y + s.h) || decide (rhs.y + rhs.h < s.y - s.h))

/-- `QTree::new` from quad1.rs lines 70-78. -/
def QTree.new (boundary : Rect) (cap : Nat) : QTree :=
  QTree.node boundary cap [] false

/-- `QTree::subdivide` from quad1.rs lines 80-93, child rectangles inline as
in the source (lines 87-90). -/
def QTree.subdivide : QTree → QTree
  | QTree.node b cap ps _ =>
      QTree.nodeC b cap ps true
        (QTree.new ⟨b.x + b.w / 2, b.y - b.h / 2, b.w / 2, b.h / 2⟩ cap)
        (QTree.new ⟨b.x - b.w / 2, b.y - b.h / 2, b.w / 2, b.h / 2⟩ cap)
        (QTree.new ⟨b.x + b.w / 2, b.y + b.h / 2, b.w / 2, b.h / 2⟩ cap)
        (QTree.new ⟨b.x - b.w / 2, b.y + b.h / 2, b.w / 2, b.h / 2⟩ cap)
  | QTree.nodeC b cap ps _ _ _ _ _ =>
      QTree.nodeC b cap ps true
        (QTree.new ⟨b.x + b.w / 2, b.y - b.h / 2, b.w / 2, b.h / 2⟩ cap)
        (QTree.new ⟨b.x - b.w / 2, b.y - b.h / 2, b.w / 2, b.h / 2⟩ cap)
        (QTree.new ⟨b.x + b.w / 2, b.y + b.h / 2, b.w / 2, b.h / 2⟩ cap)
        (QTree.new ⟨b.x - b.w / 2, b.y + b.h / 2, b.w / 2, b.h / 2⟩ cap)

/-- `QTree::insert` from quad1.rs lines 95-121, fuel-indexed exactly like the
quad2 embedding. -/
def QTree.insertFuel : Nat → QTree → Point → Option (QTree × Bool)
  | 0, _, _ => none
  | fuel + 1, t, p =>
    if Rect.contains t.boundary p = false then some (t, false)
    else if t.points.length < t.cap then some (t.pushPoint p, true)
    else
      match (if t.divided = false then QTree.subdivide t else t) with
      | QTree.node _ _ _ _ => none
      | QTree.nodeC b cap ps dv c0 c1 c2 c3 =>
        match QTree.insertFuel fuel c0 p with
        | none => none
        | some (c0', r0) =>
          if r0 then some (QTree.nodeC b cap ps dv c0' c1 c2 c3, true)
          else
            match QTree.insertFuel fuel c1 p with
            | none => none
            | some (c1', r1) =>
              if r1 then some (QTree.nodeC b cap ps dv c0' c1' c2 c3, true)
              else
                match QTree.insertFuel fuel c2 p with
                | none => none
                | some (c2', r2) =>
                  if r2 then some (QTree.nodeC b cap ps dv c0' c1' c2' c3, true)
                  else
                    match QTree.insertFuel fuel c3 p with
                    | none => none
                    | some (c3', r3) => some (QTree.nodeC b cap ps dv c0' c1' c2' c3', r3)

/-- Insert a list of points one by one with the quad1 `insert`. -/
def QTree.insertMany (fuel : Nat) : QTree → List Point → Option (QTree × List Bool)
  | t, [] => some (t, [])
  | t, p :: ps =>
    match QTree.insertFuel fuel t p with
    | none => none
    | some (t1, r) =>
      match QTree.insertMany fuel t1 ps with
      | none => none
      | some (t2, rs) => some (t2, r :: rs)

end Quad1

/-! ## The circle-vs-rectangle test as the specification words it -/

/-- Squared clamped distance from `(px, py)` to the axis-aligned rectangle
with center `(cx, cy)` and half-extents `w` and `h`. -/
def clampedDistSq (cx cy w h px py : ℚ) : ℚ :=
  max (|cx - px| - w) 0 ^ 2 + max (|cy - py| - h) 0 ^ 2

/-- Modelled from the spec: the claimed reading of `Circle::intersects` — the
standard clamped-distance circle-vs-rectangle test applied to the rectangle
with center `(region.x, region.y)` and half-extents `region.w` and `region.h`
(the `Rect` data model), intersecting when that distance is at most the
radius. -/
def claimedCircleRectTest (c : Circle) (region : Rect) : Bool :=
  decide (clampedDistSq region.x region.y region.w region.h c.x c.y ≤ c.r * c.r)

namespace QTree

/-- The inner child loop of `insert` (quad2.rs lines 145-149 plus the final
`return false`), once the node is known to be divided with children
`c0 c1 c2 c3`: try each child in order, threading mutations. -/
def insertChildren (n : Nat) (b : Rect) (capv : Nat) (ps : List Point)
    (c0 c1 c2 c3 : QTree) (p : Point) : Option (QTree × Bool) :=
  match insertFuel n c0 p with
  | none => none
  | some (c0', r0) =>
    if r0 then some (nodeC b capv ps true c0' c1 c2 c3, true)
    else
      match insertFuel n c1 p with
      | none => none
      | some (c1', r1) =>
        if r1 then some (nodeC b capv ps true c0' c1' c2 c3, true)
        else
          match insertFuel n c2 p with
          | none => none
          | some (c2', r2) =>
            if r2 then some (nodeC b capv ps true c0' c1' c2' c3, true)
            else
              match insertFuel n c3 p with
              | none => none
              | some (c3', r3) => some (nodeC b capv ps true c0' c1' c2' c3', r3)

/-- Post-condition bundle of one terminating `insert` call. -/
def InsertPost (t : QTree) (p : Point) (t' : QTree) (r : Bool) : Prop :=
  t'.wf = true ∧ t'.boundary = t.boundary ∧ t'.cap = t.cap ∧
  structLE t t' = true ∧
  (r = true → t'.allPoints.Perm (p :: t.allPoints)) ∧
  (r = false → t' = t) ∧
  (t.boundary.contains p = true → r = true)

/-- A concrete divided tree: the result of inserting `(1,1)` twice into
`new (⟨0,0,4,4⟩) 1`; used as a witness input. -/
def sampleDivided : QTree :=
  nodeC ⟨0, 0, 4, 4⟩ 1 [⟨1, 1⟩] true (new ⟨2, -2, 2, 2⟩ 1) (new ⟨-2, -2, 2, 2⟩ 1)
    (node ⟨2, 2, 2, 2⟩ 1 [⟨1, 1⟩] false) (new ⟨-2, 2, 2, 2⟩ 1)

/-- The tree after one more insert of `(1,1)` into `sampleDivided`. -/
def sampleDivided2 : QTree :=
  nodeC ⟨0, 0, 4, 4⟩ 1 [⟨1, 1⟩] true (new ⟨2, -2, 2, 2⟩ 1) (new ⟨-2, -2, 2, 2⟩ 1)
    (nodeC ⟨2, 2, 2, 2⟩ 1 [⟨1, 1⟩] true (new ⟨3, 1, 1, 1⟩ 1)
      (node ⟨1, 1, 1, 1⟩ 1 [⟨1, 1⟩] false) (new ⟨3, 3, 1, 1⟩ 1) (new ⟨1, 3, 1, 1⟩ 1))
    (new ⟨-2, 2, 2, 2⟩ 1)

end QTree

end Quaddy

namespace Quaddy

open QTree

theorem contains_iff (s : Rect) (p : Point) :
    s.contains p = true ↔
      s.x - s.w ≤ p.x ∧ p.x < s.x + s.w ∧ s.y - s.h ≤ p.y ∧ p.y < s.y + s.h := by
  simp [Rect.contains, ge_iff_le, and_assoc]

theorem mem_quadrant0_iff (b : Rect) (p : Point) :
    (quadrant0 b).contains p = true ↔
      b.x ≤ p.x ∧ p.x < b.x + b.w ∧ b.y - b.h ≤ p.y ∧ p.y < b.y := by
  rw [contains_iff]
  unfold quadrant0
  constructor <;> rintro ⟨h1, h2, h3, h4⟩ <;>
    exact ⟨by linarith, by linarith, by linarith, by linarith⟩

theorem mem_quadrant1_iff (b : Rect) (p : Point) :
    (quadrant1 b).contains p = true ↔
      b.x - b.w ≤ p.x ∧ p.x < b.x ∧ b.y - b.h ≤ p.y ∧ p.y < b.y := by
  rw [contains_iff]
  unfold quadrant1
  constructor <;> rintro ⟨h1, h2, h3, h4⟩ <;>
    exact ⟨by linarith, by linarith, by linarith, by linarith⟩

theorem mem_quadrant2_iff (b : Rect) (p : Point) :
    (quadrant2 b).contains p = true ↔
      b.x ≤ p.x ∧ p.x < b.x + b.w ∧ b.y ≤ p.y ∧ p.y < b.y + b.h := by
  rw [contains_iff]
  unfold quadrant2
  constructor <;> rintro ⟨h1, h2, h3, h4⟩ <;>
    exact ⟨by linarith, by linarith, by linarith, by linarith⟩

theorem mem_quadrant3_iff (b : Rect) (p : Point) :
    (quadrant3 b).contains p = true ↔
      b.x - b.w ≤ p.x ∧ p.x < b.x ∧ b.y ≤ p.y ∧ p.y < b.y + b.h := by
  rw [contains_iff]
  unfold quadrant3
  constructor <;> rintro ⟨h1, h2, h3, h4⟩ <;>
    exact ⟨by linarith, by linarith, by linarith, by linarith⟩

theorem quadrant_cover (b : Rect) (p : Point) :
    b.contains p =
      ((quadrant0 b).contains p || (quadrant1 b).contains p ||
       (quadrant2 b).contains p || (quadrant3 b).contains p) := by
  rw [Bool.eq_iff_iff]
  constructor
  · intro h
    rw [contains_iff] at h
    obtain ⟨h1, h2, h3, h4⟩ := h
    simp only [Bool.or_eq_true, mem_quadrant0_iff, mem_quadrant1_iff,
      mem_quadrant2_iff, mem_quadrant3_iff]
    rcases le_or_lt b.x p.x with hx | hx <;> rcases le_or_lt b.y p.y with hy | hy
    · exact Or.inl (Or.inr ⟨hx, h2, hy, h4⟩)
    · exact Or.inl (Or.inl (Or.inl ⟨hx, h2, h3, hy⟩))
    · exact Or.inr ⟨h1, hx, hy, h4⟩
    · exact Or.inl (Or.inl (Or.inr ⟨h1, hx, h3, hy⟩))
  · intro h
    rw [contains_iff]
    simp only [Bool.or_eq_true, mem_quadrant0_iff, mem_quadrant1_iff,
      mem_quadrant2_iff, mem_quadrant3_iff] at h
    rcases h with ((⟨h1, h2, h3, h4⟩ | ⟨h1, h2, h3, h4⟩) | ⟨h1, h2, h3, h4⟩) | ⟨h1, h2, h3, h4⟩ <;>
      exact ⟨by linarith, by linarith, by linarith, by linarith⟩

theorem quadrant_disjoint (b : Rect) (p : Point) :
    ((quadrant0 b).contains p && (quadrant1 b).contains p) = false ∧
    ((quadrant0 b).contains p && (quadrant2 b).contains p) = false ∧
    ((quadrant0 b).contains p && (quadrant3 b).contains p) = false ∧
    ((quadrant1 b).contains p && (quadrant2 b).contains p) = false ∧
    ((quadrant1 b).contains p && (quadrant3 b).contains p) = false ∧
    ((quadrant2 b).contains p && (quadrant3 b).contains p) = false := by
  have key : ∀ u v : Bool, (u = true → v = false) → (u && v) = false := by
    intro u v h
    cases u
    · rfl
    · rw [Bool.true_and]
      exact h rfl
  refine ⟨key _ _ fun h0 => ?_, key _ _ fun h0 => ?_, key _ _ fun h0 => ?_,
    key _ _ fun h0 => ?_, key _ _ fun h0 => ?_, key _ _ fun h0 => ?_⟩
  · rw [Bool.eq_false_iff]
    intro h1
    rw [mem_quadrant0_iff] at h0
    rw [mem_quadrant1_iff] at h1
    obtain ⟨a1, a2, a3, a4⟩ := h0
    obtain ⟨b1, b2, b3, b4⟩ := h1
    linarith
  · rw [Bool.eq_false_iff]
    intro h1
    rw [mem_quadrant0_iff] at h0
    rw [mem_quadrant2_iff] at h1
    obtain ⟨a1, a2, a3, a4⟩ := h0
    obtain ⟨b1, b2, b3, b4⟩ := h1
    linarith
  · rw [Bool.eq_false_iff]
    intro h1
    rw [mem_quadrant0_iff] at h0
    rw [mem_quadrant3_iff] at h1
    obtain ⟨a1, a2, a3, a4⟩ := h0
    obtain ⟨b1, b2, b3, b4⟩ := h1
    linarith
  · rw [Bool.eq_false_iff]
    intro h1
    rw [mem_quadrant1_iff] at h0
    rw [mem_quadrant2_iff] at h1
    obtain ⟨a1, a2, a3, a4⟩ := h0
    obtain ⟨b1, b2, b3, b4⟩ := h1
    linarith
  · rw [Bool.eq_false_iff]
    intro h1
    rw [mem_quadrant1_iff] at h0
    rw [mem_quadrant3_iff] at h1
    obtain ⟨a1, a2, a3, a4⟩ := h0
    obtain ⟨b1, b2, b3, b4⟩ := h1
    linarith
  · rw [Bool.eq_false_iff]
    intro h1
    rw [mem_quadrant2_iff] at h0
    rw [mem_quadrant3_iff] at h1
    obtain ⟨a1, a2, a3, a4⟩ := h0
    obtain ⟨b1, b2, b3, b4⟩ := h1
    linarith

theorem quadrant_sub (b : Rect) (p : Point) :
    ((quadrant0 b).contains p = true → b.contains p = true) ∧
    ((quadrant1 b).contains p = true → b.contains p = true) ∧
    ((quadrant2 b).contains p = true → b.contains p = true) ∧
    ((quadrant3 b).contains p = true → b.contains p = true) := by
  refine ⟨fun h => ?_, fun h => ?_, fun h => ?_, fun h => ?_⟩
  · rw [mem_quadrant0_iff] at h
    rw [contains_iff]
    obtain ⟨h1, h2, h3, h4⟩ := h
    exact ⟨by linarith, by linarith, by linarith, by linarith⟩
  · rw [mem_quadrant1_iff] at h
    rw [contains_iff]
    obtain ⟨h1, h2, h3, h4⟩ := h
    exact ⟨by linarith, by linarith, by linarith, by linarith⟩
  · rw [mem_quadrant2_iff] at h
    rw [contains_iff]
    obtain ⟨h1, h2, h3, h4⟩ := h
    exact ⟨by linarith, by linarith, by linarith, by linarith⟩
  · rw [mem_quadrant3_iff] at h
    rw [contains_iff]
    obtain ⟨h1, h2, h3, h4⟩ := h
    exact ⟨by linarith, by linarith, by linarith, by linarith⟩

end Quaddy

namespace Quaddy

open QTree

theorem wf_node_iff (b : Rect) (cap : Nat) (ps : List Point) (dv : Bool) :
    (node b cap ps dv).wf = true ↔
      (∀ p ∈ ps, b.contains p = true) ∧ ps.length ≤ cap ∧ dv = false := by
  simp [wf, List.all_eq_true, and_assoc]

theorem wf_nodeC_iff (b : Rect) (cap : Nat) (ps : List Point) (dv : Bool)
    (c0 c1 c2 c3 : QTree) :
    (nodeC b cap ps dv c0 c1 c2 c3).wf = true ↔
      (∀ p ∈ ps, b.contains p = true) ∧ ps.length ≤ cap ∧ dv = true ∧
      ps.length = cap ∧
      c0.boundary = quadrant0 b ∧ c0.cap = cap ∧ c0.wf = true ∧
      c1.boundary = quadrant1 b ∧ c1.cap = cap ∧ c1.wf = true ∧
      c2.boundary = quadrant2 b ∧ c2.cap = cap ∧ c2.wf = true ∧
      c3.boundary = quadrant3 b ∧ c3.cap = cap ∧ c3.wf = true := by
  simp [wf, List.all_eq_true, and_assoc]

theorem scanPoints_eq (r : Rect) (ps : List Point) (found : List Point) :
    scanPoints r ps found = found ++ ps.filter (fun p => r.contains p) := by
  induction ps generalizing found with
  | nil => simp [scanPoints]
  | cons p ps ih =>
    rw [scanPoints, List.foldl_cons, List.filter_cons]
    by_cases h : r.contains p = true
    · rw [if_pos h, if_pos h, ← scanPoints, ih]
      simp
    · rw [if_neg h, if_neg h, ← scanPoints, ih]

theorem not_intersects_no_point (s rhs : Rect) (p : Point)
    (h : s.intersects rhs = false) (hp : s.contains p = true) :
    rhs.contains p = false := by
  rw [contains_iff] at hp
  obtain ⟨h1, h2, h3, h4⟩ := hp
  rw [Bool.eq_false_iff]
  intro hc
  rw [contains_iff] at hc
  obtain ⟨g1, g2, g3, g4⟩ := hc
  simp only [Rect.intersects, Bool.not_eq_false', Bool.or_eq_true,
    decide_eq_true_eq] at h
  rcases h with ((k | k) | k) | k <;> linarith

theorem wf_allPoints_contains (t : QTree) (hw : t.wf = true) :
    ∀ p ∈ t.allPoints, t.boundary.contains p = true := by
  induction t with
  | node b cap ps dv =>
    rw [wf_node_iff] at hw
    exact fun p hp => hw.1 p hp
  | nodeC b cap ps dv c0 c1 c2 c3 ih0 ih1 ih2 ih3 =>
    rw [wf_nodeC_iff] at hw
    obtain ⟨hall, _, _, _, hb0, _, hw0, hb1, _, hw1, hb2, _, hw2, hb3, _, hw3⟩ := hw
    intro p hp
    rw [allPoints] at hp
    simp only [List.mem_append] at hp
    rcases hp with hp | hp | hp | hp | hp
    · exact hall p hp
    · have := ih0 hw0 p hp
      rw [hb0] at this
      exact (quadrant_sub b p).1 this
    · have := ih1 hw1 p hp
      rw [hb1] at this
      exact (quadrant_sub b p).2.1 this
    · have := ih2 hw2 p hp
      rw [hb2] at this
      exact (quadrant_sub b p).2.2.1 this
    · have := ih3 hw3 p hp
      rw [hb3] at this
      exact (quadrant_sub b p).2.2.2 this

end Quaddy

namespace Quaddy

open QTree

theorem query_eq (t : QTree) (r : Rect) (hw : t.wf = true) :
    ∀ found queries, ∃ visits,
      t.query r found queries =
        some (found ++ t.allPoints.filter (fun p => r.contains p), visits) := by
  induction t with
  | node b capv ps dv =>
    intro found queries
    have hall := wf_allPoints_contains _ hw
    rw [wf_node_iff] at hw
    obtain ⟨_, _, hdv⟩ := hw
    subst hdv
    by_cases hI : Rect.intersects b r = false
    · refine ⟨queries + 1, ?_⟩
      rw [query, if_pos hI]
      have hnil : (allPoints (node b capv ps false)).filter (fun p => r.contains p) = [] := by
        rw [List.filter_eq_nil_iff]
        intro p hp
        simp [not_intersects_no_point b r p hI (hall p hp)]
      rw [hnil, List.append_nil]
    · refine ⟨queries + 1, ?_⟩
      rw [query, if_neg hI, if_neg (by simp), scanPoints_eq]
      rfl
  | nodeC b capv ps dv c0 c1 c2 c3 ih0 ih1 ih2 ih3 =>
    intro found queries
    have hall := wf_allPoints_contains _ hw
    rw [wf_nodeC_iff] at hw
    obtain ⟨_, _, hdv, _, _, _, hw0, _, _, hw1, _, _, hw2, _, _, hw3⟩ := hw
    subst hdv
    by_cases hI : Rect.intersects b r = false
    · refine ⟨queries + 1, ?_⟩
      rw [query, if_pos hI]
      have hnil : (allPoints (nodeC b capv ps true c0 c1 c2 c3)).filter
          (fun p => r.contains p) = [] := by
        rw [List.filter_eq_nil_iff]
        intro p hp
        simp [not_intersects_no_point b r p hI (hall p hp)]
      rw [hnil, List.append_nil]
    · obtain ⟨v0, e0⟩ := ih0 hw0 (scanPoints r ps found) (queries + 1)
      obtain ⟨v1, e1⟩ := ih1 hw1
        (scanPoints r ps found ++ List.filter (fun p => r.contains p) c0.allPoints) v0
      obtain ⟨v2, e2⟩ := ih2 hw2
        (scanPoints r ps found ++ List.filter (fun p => r.contains p) c0.allPoints ++
          List.filter (fun p => r.contains p) c1.allPoints) v1
      obtain ⟨v3, e3⟩ := ih3 hw3
        (scanPoints r ps found ++ List.filter (fun p => r.contains p) c0.allPoints ++
          List.filter (fun p => r.contains p) c1.allPoints ++
          List.filter (fun p => r.contains p) c2.allPoints) v2
      refine ⟨v3, ?_⟩
      rw [query, if_neg hI, if_pos rfl]
      simp only [scanPoints_eq] at e0 e1 e2 e3 ⊢
      simp only [e0, e1, e2, e3, allPoints]
      simp [List.filter_append, List.append_assoc]

end Quaddy

namespace Quaddy

open QTree

theorem structLE_refl (t : QTree) : structLE t t = true := by
  induction t with
  | node b cap ps dv => simp [structLE]
  | nodeC b cap ps dv c0 c1 c2 c3 ih0 ih1 ih2 ih3 =>
    simp [structLE, ih0, ih1, ih2, ih3]

theorem structLE_trans (t1 t2 t3 : QTree) (h12 : structLE t1 t2 = true)
    (h23 : structLE t2 t3 = true) : structLE t1 t3 = true := by
  induction t1 generalizing t2 t3 with
  | node b cap ps dv =>
    cases t2 with
    | node b2 cap2 ps2 dv2 =>
      cases t3 with
      | node b3 cap3 ps3 dv3 =>
        simp only [structLE, Bool.and_eq_true, decide_eq_true_eq, Bool.or_eq_true,
          Bool.not_eq_true'] at h12 h23 ⊢
        obtain ⟨⟨e1, e2⟩, e3⟩ := h12
        obtain ⟨⟨f1, f2⟩, f3⟩ := h23
        refine ⟨⟨f1.trans e1, f2.trans e2⟩, ?_⟩
        rcases e3 with e3 | e3
        · exact Or.inl e3
        · rcases f3 with f3 | f3
          · rw [e3] at f3; simp at f3
          · exact Or.inr f3
      | nodeC b3 cap3 ps3 dv3 d0 d1 d2 d3 =>
        simp only [structLE, Bool.and_eq_true, decide_eq_true_eq, Bool.or_eq_true,
          Bool.not_eq_true'] at h12 h23 ⊢
        obtain ⟨⟨e1, e2⟩, e3⟩ := h12
        obtain ⟨⟨f1, f2⟩, f3⟩ := h23
        refine ⟨⟨f1.trans e1, f2.trans e2⟩, ?_⟩
        rcases e3 with e3 | e3
        · exact Or.inl e3
        · rcases f3 with f3 | f3
          · rw [e3] at f3; simp at f3
          · exact Or.inr f3
    | nodeC b2 cap2 ps2 dv2 k0 k1 k2 k3 =>
      cases t3 with
      | node b3 cap3 ps3 dv3 => simp [structLE] at h23
      | nodeC b3 cap3 ps3 dv3 d0 d1 d2 d3 =>
        simp only [structLE, Bool.and_eq_true, decide_eq_true_eq, Bool.or_eq_true,
          Bool.not_eq_true'] at h12 h23 ⊢
        obtain ⟨⟨e1, e2⟩, e3⟩ := h12
        obtain ⟨⟨⟨⟨⟨⟨f1, f2⟩, f3⟩, _⟩, _⟩, _⟩, _⟩ := h23
        refine ⟨⟨f1.trans e1, f2.trans e2⟩, ?_⟩
        rcases e3 with e3 | e3
        · exact Or.inl e3
        · rcases f3 with f3 | f3
          · rw [e3] at f3; simp at f3
          · exact Or.inr f3
  | nodeC b cap ps dv c0 c1 c2 c3 ih0 ih1 ih2 ih3 =>
    cases t2 with
    | node b2 cap2 ps2 dv2 => simp [structLE] at h12
    | nodeC b2 cap2 ps2 dv2 k0 k1 k2 k3 =>
      cases t3 with
      | node b3 cap3 ps3 dv3 => simp [structLE] at h23
      | nodeC b3 cap3 ps3 dv3 d0 d1 d2 d3 =>
        simp only [structLE, Bool.and_eq_true, decide_eq_true_eq, Bool.or_eq_true,
          Bool.not_eq_true'] at h12 h23 ⊢
        obtain ⟨⟨⟨⟨⟨⟨e1, e2⟩, e3⟩, g0⟩, g1⟩, g2⟩, g3⟩ := h12
        obtain ⟨⟨⟨⟨⟨⟨f1, f2⟩, f3⟩, j0⟩, j1⟩, j2⟩, j3⟩ := h23
        refine ⟨⟨⟨⟨⟨⟨f1.trans e1, f2.trans e2⟩, ?_⟩, ih0 _ _ g0 j0⟩, ih1 _ _ g1 j1⟩,
          ih2 _ _ g2 j2⟩, ih3 _ _ g3 j3⟩
        rcases e3 with e3 | e3
        · exact Or.inl e3
        · rcases f3 with f3 | f3
          · rw [e3] at f3; simp at f3
          · exact Or.inr f3

theorem wf_new (b : Rect) (cap : Nat) : (new b cap).wf = true := by
  simp [new, wf]

theorem insert_not_contains (fuel : Nat) (t : QTree) (p : Point)
    (hc : t.boundary.contains p = false) :
    insertFuel (fuel + 1) t p = some (t, false) := by
  rw [insertFuel, if_pos hc]

end Quaddy

namespace Quaddy

open QTree

theorem insertFuel_node_full (n : Nat) (b : Rect) (capv : Nat) (ps : List Point)
    (p : Point) (hc : Rect.contains b p = true) (hlen : ¬ ps.length < capv) :
    insertFuel (n + 1) (node b capv ps false) p =
      insertChildren n b capv ps (new (quadrant0 b) capv) (new (quadrant1 b) capv)
        (new (quadrant2 b) capv) (new (quadrant3 b) capv) p := by
  rw [insertFuel]
  rw [if_neg (by simp [boundary, hc]), if_neg (by simpa [points, cap] using hlen)]
  rfl

theorem insertFuel_nodeC_full (n : Nat) (b : Rect) (capv : Nat) (ps : List Point)
    (c0 c1 c2 c3 : QTree) (p : Point) (hc : Rect.contains b p = true)
    (hlen : ¬ ps.length < capv) :
    insertFuel (n + 1) (nodeC b capv ps true c0 c1 c2 c3) p =
      insertChildren n b capv ps c0 c1 c2 c3 p := by
  rw [insertFuel]
  rw [if_neg (by simp [boundary, hc]), if_neg (by simpa [points, cap] using hlen)]
  rfl

theorem pushPoint_perm (t : QTree) (p : Point) :
    (t.pushPoint p).allPoints.Perm (p :: t.allPoints) := by
  cases t with
  | node b c ps dv => simp only [pushPoint, allPoints]; exact List.perm_append_singleton p ps
  | nodeC b c ps dv c0 c1 c2 c3 =>
    simp only [pushPoint, allPoints, List.append_assoc, List.singleton_append]
    exact List.perm_middle

end Quaddy

namespace Quaddy

open QTree

theorem perm_insert_last (L X X' : List Point) (p : Point)
    (h : X'.Perm (p :: X)) : (L ++ X').Perm (p :: (L ++ X)) :=
  (h.append_left L).trans List.perm_middle

theorem perm_insert_middle (L X R X' : List Point) (p : Point)
    (h : X'.Perm (p :: X)) : (L ++ (X' ++ R)).Perm (p :: (L ++ (X ++ R))) := by
  have h1 : (X' ++ R).Perm (p :: (X ++ R)) := by
    have := h.append_right R
    rwa [List.cons_append] at this
  exact perm_insert_last L (X ++ R) (X' ++ R) p h1

theorem insertChildren_master (n : Nat) (b : Rect) (capv : Nat) (ps : List Point)
    (c0 c1 c2 c3 : QTree) (p : Point) (t' : QTree) (r : Bool)
    (IH : ∀ t₀ p₀ u s, t₀.wf = true → insertFuel n t₀ p₀ = some (u, s) →
      InsertPost t₀ p₀ u s)
    (hw : (nodeC b capv ps true c0 c1 c2 c3).wf = true)
    (hc : Rect.contains b p = true)
    (h : insertChildren n b capv ps c0 c1 c2 c3 p = some (t', r)) :
    InsertPost (nodeC b capv ps true c0 c1 c2 c3) p t' r := by
  obtain ⟨hall, hle, -, hlen, hb0, hk0, hw0, hb1, hk1, hw1, hb2, hk2, hw2, hb3, hk3, hw3⟩ :=
    (wf_nodeC_iff b capv ps true c0 c1 c2 c3).mp hw
  rw [insertChildren] at h
  cases e0 : insertFuel n c0 p with
  | none => rw [e0] at h; simp at h
  | some v0 =>
  obtain ⟨c0', r0⟩ := v0
  rw [e0] at h
  obtain ⟨jw0, jb0, jc0, js0, jp0, ju0, jt0⟩ := IH c0 p c0' r0 hw0 e0
  cases r0 with
  | true =>
    dsimp only at h
    simp only [Bool.false_eq_true, Bool.true_eq_false, if_true, if_false,
      Option.some.injEq, Prod.mk.injEq] at h
    obtain ⟨ht, hr⟩ := h
    subst ht
    subst hr
    refine ⟨?_, rfl, rfl, ?_, ?_, ?_, fun _ => rfl⟩
    · exact (wf_nodeC_iff b capv ps true c0' c1 c2 c3).mpr
        ⟨hall, hle, rfl, hlen, jb0.trans hb0, jc0.trans hk0, jw0,
          hb1, hk1, hw1, hb2, hk2, hw2, hb3, hk3, hw3⟩
    · simp [structLE, js0, structLE_refl]
    · intro _
      simp only [allPoints]
      exact perm_insert_middle ps c0.allPoints _ c0'.allPoints p (jp0 rfl)
    · intro hh; simp at hh
  | false =>
    dsimp only at h
    simp only [Bool.false_eq_true, if_false] at h
    rw [ju0 rfl] at h
    cases e1 : insertFuel n c1 p with
    | none => rw [e1] at h; simp at h
    | some v1 =>
    obtain ⟨c1', r1⟩ := v1
    rw [e1] at h
    obtain ⟨jw1, jb1, jc1, js1, jp1, ju1, jt1⟩ := IH c1 p c1' r1 hw1 e1
    cases r1 with
    | true =>
      dsimp only at h
      simp only [Bool.false_eq_true, Bool.true_eq_false, if_true, if_false,
        Option.some.injEq, Prod.mk.injEq] at h
      obtain ⟨ht, hr⟩ := h
      subst ht
      subst hr
      refine ⟨?_, rfl, rfl, ?_, ?_, ?_, fun _ => rfl⟩
      · exact (wf_nodeC_iff b capv ps true c0 c1' c2 c3).mpr
          ⟨hall, hle, rfl, hlen, hb0, hk0, hw0, jb1.trans hb1, jc1.trans hk1, jw1,
            hb2, hk2, hw2, hb3, hk3, hw3⟩
      · simp [structLE, js1, structLE_refl]
      · intro _
        simp only [allPoints]
        have := perm_insert_middle (ps ++ c0.allPoints) c1.allPoints
          (c2.allPoints ++ c3.allPoints) c1'.allPoints p (jp1 rfl)
        simpa [List.append_assoc] using this
      · intro hh; simp at hh
    | false =>
      dsimp only at h
      simp only [Bool.false_eq_true, if_false] at h
      rw [ju1 rfl] at h
      cases e2 : insertFuel n c2 p with
      | none => rw [e2] at h; simp at h
      | some v2 =>
      obtain ⟨c2', r2⟩ := v2
      rw [e2] at h
      obtain ⟨jw2, jb2, jc2, js2, jp2, ju2, jt2⟩ := IH c2 p c2' r2 hw2 e2
      cases r2 with
      | true =>
        dsimp only at h
        simp only [Bool.false_eq_true, Bool.true_eq_false, if_true, if_false,
          Option.some.injEq, Prod.mk.injEq] at h
        obtain ⟨ht, hr⟩ := h
        subst ht
        subst hr
        refine ⟨?_, rfl, rfl, ?_, ?_, ?_, fun _ => rfl⟩
        · exact (wf_nodeC_iff b capv ps true c0 c1 c2' c3).mpr
            ⟨hall, hle, rfl, hlen, hb0, hk0, hw0, hb1, hk1, hw1,
              jb2.trans hb2, jc2.trans hk2, jw2, hb3, hk3, hw3⟩
        · simp [structLE, js2, structLE_refl]
        · intro _
          simp only [allPoints]
          have := perm_insert_middle (ps ++ c0.allPoints ++ c1.allPoints) c2.allPoints
            c3.allPoints c2'.allPoints p (jp2 rfl)
          simpa [List.append_assoc] using this
        · intro hh; simp at hh
      | false =>
        dsimp only at h
        simp only [Bool.false_eq_true, if_false] at h
        rw [ju2 rfl] at h
        cases e3 : insertFuel n c3 p with
        | none => rw [e3] at h; simp at h
        | some v3 =>
        obtain ⟨c3', r3⟩ := v3
        rw [e3] at h
        obtain ⟨jw3, jb3, jc3, js3, jp3, ju3, jt3⟩ := IH c3 p c3' r3 hw3 e3
        dsimp only at h
        simp only [Bool.false_eq_true, Bool.true_eq_false, if_true, if_false,
          Option.some.injEq, Prod.mk.injEq] at h
        obtain ⟨ht, hr⟩ := h
        subst ht
        subst hr
        cases r3 with
        | true =>
          refine ⟨?_, rfl, rfl, ?_, ?_, ?_, fun _ => rfl⟩
          · exact (wf_nodeC_iff b capv ps true c0 c1 c2 c3').mpr
              ⟨hall, hle, rfl, hlen, hb0, hk0, hw0, hb1, hk1, hw1,
                hb2, hk2, hw2, jb3.trans hb3, jc3.trans hk3, jw3⟩
          · simp [structLE, js3, structLE_refl]
          · intro _
            simp only [allPoints]
            have := perm_insert_last (ps ++ c0.allPoints ++ c1.allPoints ++ c2.allPoints)
              c3.allPoints c3'.allPoints p (jp3 rfl)
            simpa [List.append_assoc] using this
          · intro hh; simp at hh
        | false =>
          exfalso
          have hq0 : Rect.contains c0.boundary p = false := by
            cases hq : Rect.contains c0.boundary p
            · rfl
            · exact absurd (jt0 hq) (by simp)
          have hq1 : Rect.contains c1.boundary p = false := by
            cases hq : Rect.contains c1.boundary p
            · rfl
            · exact absurd (jt1 hq) (by simp)
          have hq2 : Rect.contains c2.boundary p = false := by
            cases hq : Rect.contains c2.boundary p
            · rfl
            · exact absurd (jt2 hq) (by simp)
          have hq3 : Rect.contains c3.boundary p = false := by
            cases hq : Rect.contains c3.boundary p
            · rfl
            · exact absurd (jt3 hq) (by simp)
          have hcov := quadrant_cover b p
          rw [hc, ← hb0, ← hb1, ← hb2, ← hb3, hq0, hq1, hq2, hq3] at hcov
          simp at hcov

end Quaddy

namespace Quaddy

open QTree

theorem pushPoint_boundary (t : QTree) (p : Point) : (t.pushPoint p).boundary = t.boundary := by
  cases t <;> rfl

theorem pushPoint_cap (t : QTree) (p : Point) : (t.pushPoint p).cap = t.cap := by
  cases t <;> rfl

theorem structLE_pushPoint (t : QTree) (p : Point) : structLE t (t.pushPoint p) = true := by
  cases t with
  | node b c ps dv => simp [pushPoint, structLE]
  | nodeC b c ps dv c0 c1 c2 c3 => simp [pushPoint, structLE, structLE_refl]

theorem wf_pushPoint (t : QTree) (p : Point) (hw : t.wf = true)
    (hc : t.boundary.contains p = true) (hlen : t.points.length < t.cap) :
    (t.pushPoint p).wf = true := by
  cases t with
  | node b capv ps dv =>
    obtain ⟨hall, hle, hdv⟩ := (wf_node_iff b capv ps dv).mp hw
    subst hdv
    refine (wf_node_iff b capv (ps ++ [p]) false).mpr ⟨?_, ?_, rfl⟩
    · intro q hq
      rcases List.mem_append.mp hq with hq | hq
      · exact hall q hq
      · rw [List.mem_singleton.mp hq]
        exact hc
    · have : ps.length < capv := hlen
      simp only [List.length_append, List.length_singleton]
      omega
  | nodeC b capv ps dv c0 c1 c2 c3 =>
    obtain ⟨-, -, -, hlen', -⟩ := (wf_nodeC_iff b capv ps dv c0 c1 c2 c3).mp hw
    have : ps.length < capv := hlen
    omega

theorem insert_master (fuel : Nat) :
    ∀ (t : QTree) (p : Point) (t' : QTree) (r : Bool), t.wf = true →
      insertFuel fuel t p = some (t', r) → InsertPost t p t' r := by
  induction fuel with
  | zero =>
    intro t p t' r hw h
    simp [insertFuel] at h
  | succ n ihn =>
    intro t p t' r hw h
    by_cases hc : t.boundary.contains p = false
    · rw [insert_not_contains n t p hc] at h
      simp only [Option.some.injEq, Prod.mk.injEq] at h
      obtain ⟨ht, hr⟩ := h
      subst ht
      subst hr
      refine ⟨hw, rfl, rfl, structLE_refl t, by simp, fun _ => rfl, fun hcc => ?_⟩
      rw [hc] at hcc
      exact absurd hcc (by simp)
    · have hc' : t.boundary.contains p = true := by
        cases hq : t.boundary.contains p
        · exact absurd hq hc
        · rfl
      by_cases hlen : t.points.length < t.cap
      · have hstep : insertFuel (n + 1) t p = some (t.pushPoint p, true) := by
          rw [insertFuel, if_neg hc, if_pos hlen]
        rw [hstep] at h
        simp only [Option.some.injEq, Prod.mk.injEq] at h
        obtain ⟨ht, hr⟩ := h
        subst ht
        subst hr
        exact ⟨wf_pushPoint t p hw hc' hlen, pushPoint_boundary t p, pushPoint_cap t p,
          structLE_pushPoint t p, fun _ => pushPoint_perm t p,
          fun hh => absurd hh (by simp), fun _ => rfl⟩
      · cases t with
        | node b capv ps dv =>
          obtain ⟨hall, hle, hdv⟩ := (wf_node_iff b capv ps dv).mp hw
          subst hdv
          have hcb : Rect.contains b p = true := hc'
          have hlenb : ¬ ps.length < capv := hlen
          rw [insertFuel_node_full n b capv ps p hcb hlenb] at h
          have hlen' : ps.length = capv := le_antisymm hle (not_lt.mp hlenb)
          have hw1 : (nodeC b capv ps true (new (quadrant0 b) capv) (new (quadrant1 b) capv)
              (new (quadrant2 b) capv) (new (quadrant3 b) capv)).wf = true :=
            (wf_nodeC_iff b capv ps true _ _ _ _).mpr
              ⟨hall, hle, rfl, hlen', rfl, rfl, wf_new _ _, rfl, rfl, wf_new _ _,
                rfl, rfl, wf_new _ _, rfl, rfl, wf_new _ _⟩
          have post := insertChildren_master n b capv ps _ _ _ _ p t' r
            (fun t₀ p₀ u s hw₀ h₀ => ihn t₀ p₀ u s hw₀ h₀) hw1 hcb h
          obtain ⟨pw, pb, pc, psl, pperm, pun, pcon⟩ := post
          have hallEq : (nodeC b capv ps true (new (quadrant0 b) capv) (new (quadrant1 b) capv)
              (new (quadrant2 b) capv) (new (quadrant3 b) capv)).allPoints = ps := by
            simp [allPoints, new]
          refine ⟨pw, pb, pc, ?_, ?_, ?_, fun _ => pcon hcb⟩
          · refine structLE_trans _ _ _ (by simp [structLE]) psl
          · intro hh
            have := pperm hh
            rwa [hallEq] at this
          · intro hh
            have := pcon hcb
            rw [hh] at this
            exact absurd this (by simp)
        | nodeC b capv ps dv c0 c1 c2 c3 =>
          have hdv : dv = true :=
            ((wf_nodeC_iff b capv ps dv c0 c1 c2 c3).mp hw).2.2.1
          subst hdv
          have hcb : Rect.contains b p = true := hc'
          have hlenb : ¬ ps.length < capv := hlen
          rw [insertFuel_nodeC_full n b capv ps c0 c1 c2 c3 p hcb hlenb] at h
          exact insertChildren_master n b capv ps c0 c1 c2 c3 p t' r
            (fun t₀ p₀ u s hw₀ h₀ => ihn t₀ p₀ u s hw₀ h₀) hw hcb h

end Quaddy

namespace Quaddy

open QTree

theorem pushPoint_height (t : QTree) (p : Point) : (t.pushPoint p).height = t.height := by
  cases t <;> rfl

theorem insert_new_height (n : Nat) (qb : Rect) (capv : Nat) (p : Point) (u : QTree)
    (s : Bool) (hcap : 0 < capv) (h : insertFuel n (new qb capv) p = some (u, s)) :
    u.height = 0 := by
  cases n with
  | zero => simp [insertFuel] at h
  | succ m =>
    rw [insertFuel] at h
    by_cases hc : (new qb capv).boundary.contains p = false
    · rw [if_pos hc] at h
      simp only [Option.some.injEq, Prod.mk.injEq] at h
      rw [← h.1]
      rfl
    · rw [if_neg hc, if_pos (by simp [new, points, cap]; omega)] at h
      simp only [Option.some.injEq, Prod.mk.injEq] at h
      rw [← h.1]
      rfl

theorem insert_new_contains (m : Nat) (qb : Rect) (capv : Nat) (p : Point)
    (hcap : 0 < capv) (hc : Rect.contains qb p = true) :
    insertFuel (m + 1) (new qb capv) p = some (node qb capv [p] false, true) := by
  rw [insertFuel, if_neg (by simp [new, boundary, hc]),
    if_pos (by simp [new, points, cap]; omega)]
  rfl

theorem insertChildren_height (n : Nat) (b : Rect) (capv : Nat) (ps : List Point)
    (c0 c1 c2 c3 : QTree) (p : Point) (t' : QTree) (r : Bool) (hbound : Nat)
    (H0 : ∀ u s, insertFuel n c0 p = some (u, s) → u.height ≤ hbound)
    (H1 : ∀ u s, insertFuel n c1 p = some (u, s) → u.height ≤ hbound)
    (H2 : ∀ u s, insertFuel n c2 p = some (u, s) → u.height ≤ hbound)
    (H3 : ∀ u s, insertFuel n c3 p = some (u, s) → u.height ≤ hbound)
    (Hk0 : c0.height ≤ hbound) (Hk1 : c1.height ≤ hbound)
    (Hk2 : c2.height ≤ hbound) (Hk3 : c3.height ≤ hbound)
    (h : insertChildren n b capv ps c0 c1 c2 c3 p = some (t', r)) :
    t'.height ≤ hbound + 1 := by
  rw [insertChildren] at h
  cases e0 : insertFuel n c0 p with
  | none => rw [e0] at h; simp at h
  | some v0 =>
  obtain ⟨c0', r0⟩ := v0
  rw [e0] at h
  have j0 := H0 c0' r0 e0
  cases r0 with
  | true =>
    dsimp only at h
    simp only [Bool.false_eq_true, Bool.true_eq_false, if_true, if_false,
      Option.some.injEq, Prod.mk.injEq] at h
    rw [← h.1]
    simp only [height]
    omega
  | false =>
    dsimp only at h
    simp only [Bool.false_eq_true, if_false] at h
    cases e1 : insertFuel n c1 p with
    | none => rw [e1] at h; simp at h
    | some v1 =>
    obtain ⟨c1', r1⟩ := v1
    rw [e1] at h
    have j1 := H1 c1' r1 e1
    cases r1 with
    | true =>
      dsimp only at h
      simp only [Bool.false_eq_true, Bool.true_eq_false, if_true, if_false,
        Option.some.injEq, Prod.mk.injEq] at h
      rw [← h.1]
      simp only [height]
      omega
    | false =>
      dsimp only at h
      simp only [Bool.false_eq_true, if_false] at h
      cases e2 : insertFuel n c2 p with
      | none => rw [e2] at h; simp at h
      | some v2 =>
      obtain ⟨c2', r2⟩ := v2
      rw [e2] at h
      have j2 := H2 c2' r2 e2
      cases r2 with
      | true =>
        dsimp only at h
        simp only [Bool.false_eq_true, Bool.true_eq_false, if_true, if_false,
          Option.some.injEq, Prod.mk.injEq] at h
        rw [← h.1]
        simp only [height]
        omega
      | false =>
        dsimp only at h
        simp only [Bool.false_eq_true, if_false] at h
        cases e3 : insertFuel n c3 p with
        | none => rw [e3] at h; simp at h
        | some v3 =>
        obtain ⟨c3', r3⟩ := v3
        rw [e3] at h
        have j3 := H3 c3' r3 e3
        dsimp only at h
        simp only [Option.some.injEq, Prod.mk.injEq] at h
        rw [← h.1]
        simp only [height]
        omega

theorem insert_height (fuel : Nat) :
    ∀ (t : QTree) (p : Point) (t' : QTree) (r : Bool), t.wf = true → 1 ≤ t.cap →
      insertFuel fuel t p = some (t', r) → t'.height ≤ t.height + 1 := by
  induction fuel with
  | zero =>
    intro t p t' r _ _ h
    simp [insertFuel] at h
  | succ n ihn =>
    intro t p t' r hw hcap h
    by_cases hc : t.boundary.contains p = false
    · rw [insert_not_contains n t p hc] at h
      simp only [Option.some.injEq, Prod.mk.injEq] at h
      rw [← h.1]
      omega
    · by_cases hlen : t.points.length < t.cap
      · rw [insertFuel, if_neg hc, if_pos hlen] at h
        simp only [Option.some.injEq, Prod.mk.injEq] at h
        rw [← h.1, pushPoint_height]
        omega
      · have hc' : t.boundary.contains p = true := by
          cases hq : t.boundary.contains p
          · exact absurd hq hc
          · rfl
        cases t with
        | node b capv ps dv =>
          obtain ⟨hall, hle, hdv⟩ := (wf_node_iff b capv ps dv).mp hw
          subst hdv
          rw [insertFuel_node_full n b capv ps p hc' hlen] at h
          have hcv : 0 < capv := hcap
          have := insertChildren_height n b capv ps _ _ _ _ p t' r 0
            (fun u s hh => le_of_eq (insert_new_height n _ capv p u s hcv hh))
            (fun u s hh => le_of_eq (insert_new_height n _ capv p u s hcv hh))
            (fun u s hh => le_of_eq (insert_new_height n _ capv p u s hcv hh))
            (fun u s hh => le_of_eq (insert_new_height n _ capv p u s hcv hh))
            (by simp [new, height]) (by simp [new, height]) (by simp [new, height])
            (by simp [new, height]) h
          simpa [height] using this
        | nodeC b capv ps dv c0 c1 c2 c3 =>
          obtain ⟨-, -, hdv, -, -, hk0, hw0, -, hk1, hw1, -, hk2, hw2, -, hk3, hw3⟩ :=
            (wf_nodeC_iff b capv ps dv c0 c1 c2 c3).mp hw
          subst hdv
          rw [insertFuel_nodeC_full n b capv ps c0 c1 c2 c3 p hc' hlen] at h
          have hcv : 1 ≤ capv := hcap
          have hb := insertChildren_height n b capv ps c0 c1 c2 c3 p t' r
            ((max (max c0.height c1.height) (max c2.height c3.height)) + 1)
            (fun u s hh => le_trans (ihn c0 p u s hw0 (by rw [hk0]; exact hcv) hh) (by omega))
            (fun u s hh => le_trans (ihn c1 p u s hw1 (by rw [hk1]; exact hcv) hh) (by omega))
            (fun u s hh => le_trans (ihn c2 p u s hw2 (by rw [hk2]; exact hcv) hh) (by omega))
            (fun u s hh => le_trans (ihn c3 p u s hw3 (by rw [hk3]; exact hcv) hh) (by omega))
            (by omega) (by omega) (by omega) (by omega) h
          simpa [height] using hb

end Quaddy

namespace Quaddy

open QTree

theorem insertChildren_total (n : Nat) (b : Rect) (capv : Nat) (ps : List Point)
    (c0 c1 c2 c3 : QTree) (p : Point)
    (H0 : ∃ u, insertFuel n c0 p = some (u, c0.boundary.contains p))
    (H1 : ∃ u, insertFuel n c1 p = some (u, c1.boundary.contains p))
    (H2 : ∃ u, insertFuel n c2 p = some (u, c2.boundary.contains p))
    (H3 : ∃ u, insertFuel n c3 p = some (u, c3.boundary.contains p))
    (hcov : c0.boundary.contains p = true ∨ c1.boundary.contains p = true ∨
      c2.boundary.contains p = true ∨ c3.boundary.contains p = true) :
    ∃ t', insertChildren n b capv ps c0 c1 c2 c3 p = some (t', true) := by
  obtain ⟨u0, e0⟩ := H0
  cases hq0 : c0.boundary.contains p with
  | true =>
    rw [hq0] at e0
    exact ⟨nodeC b capv ps true u0 c1 c2 c3, by rw [insertChildren, e0]; rfl⟩
  | false =>
    rw [hq0] at e0
    obtain ⟨u1, e1⟩ := H1
    cases hq1 : c1.boundary.contains p with
    | true =>
      rw [hq1] at e1
      exact ⟨nodeC b capv ps true u0 u1 c2 c3, by rw [insertChildren, e0, e1]; rfl⟩
    | false =>
      rw [hq1] at e1
      obtain ⟨u2, e2⟩ := H2
      cases hq2 : c2.boundary.contains p with
      | true =>
        rw [hq2] at e2
        exact ⟨nodeC b capv ps true u0 u1 u2 c3, by rw [insertChildren, e0, e1, e2]; rfl⟩
      | false =>
        rw [hq2] at e2
        obtain ⟨u3, e3⟩ := H3
        cases hq3 : c3.boundary.contains p with
        | true =>
          rw [hq3] at e3
          exact ⟨nodeC b capv ps true u0 u1 u2 u3,
            by rw [insertChildren, e0, e1, e2, e3]; rfl⟩
        | false =>
          rw [hq0, hq1, hq2, hq3] at hcov
          simp at hcov

theorem insert_total (fuel : Nat) :
    ∀ (t : QTree) (p : Point), t.wf = true → 1 ≤ t.cap →
      t.boundary.contains p = true → t.height + 2 ≤ fuel →
      ∃ t', insertFuel fuel t p = some (t', true) := by
  induction fuel with
  | zero =>
    intro t p _ _ _ hf
    omega
  | succ n ihn =>
    intro t p hw hcap hc hf
    by_cases hlen : t.points.length < t.cap
    · exact ⟨t.pushPoint p, by rw [insertFuel, if_neg (by rw [hc]; simp), if_pos hlen]⟩
    · cases t with
      | node b capv ps dv =>
        obtain ⟨hall, hle, hdv⟩ := (wf_node_iff b capv ps dv).mp hw
        subst hdv
        have hcb : Rect.contains b p = true := hc
        have hcv : 0 < capv := hcap
        rw [insertFuel_node_full n b capv ps p hcb hlen]
        have hf0 : (0 : Nat) + 2 ≤ n + 1 := by
          rw [show (node b capv ps false).height = 0 from rfl] at hf
          exact hf
        obtain ⟨m, rfl⟩ : ∃ m, n = m + 1 := ⟨n - 1, by omega⟩
        have hcov := quadrant_cover b p
        rw [hcb] at hcov
        have key : ∀ qb : Rect,
            ∃ u, insertFuel (m + 1) (new qb capv) p =
              some (u, (new qb capv).boundary.contains p) := by
          intro qb
          cases hq : (new qb capv).boundary.contains p with
          | true => exact ⟨node qb capv [p] false, insert_new_contains m qb capv p hcv hq⟩
          | false => exact ⟨new qb capv, insert_not_contains m _ p hq⟩
        refine insertChildren_total (m + 1) b capv ps _ _ _ _ p (key _) (key _) (key _)
          (key _) ?_
        have hcov' : ((quadrant0 b).contains p || (quadrant1 b).contains p ||
            (quadrant2 b).contains p || (quadrant3 b).contains p) = true := hcov.symm
        simp only [Bool.or_eq_true] at hcov'
        rcases hcov' with ((hq | hq) | hq) | hq
        · exact Or.inl hq
        · exact Or.inr (Or.inl hq)
        · exact Or.inr (Or.inr (Or.inl hq))
        · exact Or.inr (Or.inr (Or.inr hq))
      | nodeC b capv ps dv c0 c1 c2 c3 =>
        obtain ⟨-, -, hdv, -, hb0, hk0, hw0, hb1, hk1, hw1, hb2, hk2, hw2, hb3, hk3, hw3⟩ :=
          (wf_nodeC_iff b capv ps dv c0 c1 c2 c3).mp hw
        subst hdv
        have hcb : Rect.contains b p = true := hc
        have hcv : 1 ≤ capv := hcap
        rw [insertFuel_nodeC_full n b capv ps c0 c1 c2 c3 p hcb hlen]
        rw [show (nodeC b capv ps true c0 c1 c2 c3).height =
            (max (max c0.height c1.height) (max c2.height c3.height)) + 1 from rfl] at hf
        have hm01 : max c0.height c1.height ≤ max (max c0.height c1.height)
            (max c2.height c3.height) := le_max_left _ _
        have hm23 : max c2.height c3.height ≤ max (max c0.height c1.height)
            (max c2.height c3.height) := le_max_right _ _
        have hx0 : c0.height ≤ max c0.height c1.height := le_max_left _ _
        have hx1 : c1.height ≤ max c0.height c1.height := le_max_right _ _
        have hx2 : c2.height ≤ max c2.height c3.height := le_max_left _ _
        have hx3 : c3.height ≤ max c2.height c3.height := le_max_right _ _
        obtain ⟨m, rfl⟩ : ∃ m, n = m + 1 := ⟨n - 1, by omega⟩
        have key : ∀ c : QTree, c.wf = true → c.cap = capv → c.height + 2 ≤ m + 1 →
            ∃ u, insertFuel (m + 1) c p = some (u, c.boundary.contains p) := by
          intro c hwc hkc hhc
          cases hq : c.boundary.contains p with
          | true =>
            obtain ⟨u, hu⟩ := ihn c p hwc (by rw [hkc]; exact hcv) hq hhc
            exact ⟨u, hu⟩
          | false => exact ⟨c, insert_not_contains m c p hq⟩
        refine insertChildren_total (m + 1) b capv ps c0 c1 c2 c3 p
          (key c0 hw0 hk0 (by omega)) (key c1 hw1 hk1 (by omega))
          (key c2 hw2 hk2 (by omega)) (key c3 hw3 hk3 (by omega)) ?_
        have hcov := quadrant_cover b p
        rw [hcb] at hcov
        have hcov' : ((quadrant0 b).contains p || (quadrant1 b).contains p ||
            (quadrant2 b).contains p || (quadrant3 b).contains p) = true := hcov.symm
        simp only [Bool.or_eq_true] at hcov'
        rw [hb0, hb1, hb2, hb3]
        rcases hcov' with ((hq | hq) | hq) | hq
        · exact Or.inl hq
        · exact Or.inr (Or.inl hq)
        · exact Or.inr (Or.inr (Or.inl hq))
        · exact Or.inr (Or.inr (Or.inr hq))

end Quaddy

namespace Quaddy

open QTree

theorem insertChildren_none (n : Nat) (b : Rect) (capv : Nat) (ps : List Point)
    (c0 c1 c2 c3 : QTree) (p : Point)
    (G0 : insertFuel n c0 p = none ∨
      (insertFuel n c0 p = some (c0, false) ∧ c0.boundary.contains p = false))
    (G1 : insertFuel n c1 p = none ∨
      (insertFuel n c1 p = some (c1, false) ∧ c1.boundary.contains p = false))
    (G2 : insertFuel n c2 p = none ∨
      (insertFuel n c2 p = some (c2, false) ∧ c2.boundary.contains p = false))
    (G3 : insertFuel n c3 p = none ∨
      (insertFuel n c3 p = some (c3, false) ∧ c3.boundary.contains p = false))
    (hcov : c0.boundary.contains p = true ∨ c1.boundary.contains p = true ∨
      c2.boundary.contains p = true ∨ c3.boundary.contains p = true) :
    insertChildren n b capv ps c0 c1 c2 c3 p = none := by
  rcases G0 with e0 | ⟨e0, hq0⟩
  · rw [insertChildren, e0]
  · rcases G1 with e1 | ⟨e1, hq1⟩
    · rw [insertChildren, e0, e1]; rfl
    · rcases G2 with e2 | ⟨e2, hq2⟩
      · rw [insertChildren, e0, e1, e2]; rfl
      · rcases G3 with e3 | ⟨e3, hq3⟩
        · rw [insertChildren, e0, e1, e2, e3]; rfl
        · rw [hq0, hq1, hq2, hq3] at hcov
          simp at hcov

theorem insert_cap0 (fuel : Nat) :
    ∀ (t : QTree) (p : Point), t.wf = true → t.cap = 0 →
      t.boundary.contains p = true → insertFuel fuel t p = none := by
  induction fuel with
  | zero => intro t p _ _ _; rfl
  | succ n ihn =>
    intro t p hw hcap hc
    have hlen : ¬ t.points.length < t.cap := by omega
    cases t with
    | node b capv ps dv =>
      obtain ⟨hall, hle, hdv⟩ := (wf_node_iff b capv ps dv).mp hw
      subst hdv
      have hcb : Rect.contains b p = true := hc
      have hcv : capv = 0 := hcap
      subst hcv
      rw [insertFuel_node_full n b 0 ps p hcb hlen]
      have hcov := quadrant_cover b p
      rw [hcb] at hcov
      have hcov' : ((quadrant0 b).contains p || (quadrant1 b).contains p ||
          (quadrant2 b).contains p || (quadrant3 b).contains p) = true := hcov.symm
      simp only [Bool.or_eq_true] at hcov'
      have key : ∀ qb : Rect,
          insertFuel n (new qb 0) p = none ∨
            (insertFuel n (new qb 0) p = some (new qb 0, false) ∧
              (new qb 0).boundary.contains p = false) := by
        intro qb
        cases hq : (new qb 0).boundary.contains p with
        | true => exact Or.inl (ihn (new qb 0) p (wf_new qb 0) rfl hq)
        | false =>
          cases n with
          | zero => exact Or.inl rfl
          | succ m => exact Or.inr ⟨insert_not_contains m _ p hq, rfl⟩
      refine insertChildren_none n b 0 ps _ _ _ _ p (key _) (key _) (key _) (key _) ?_
      rcases hcov' with ((hq | hq) | hq) | hq
      · exact Or.inl hq
      · exact Or.inr (Or.inl hq)
      · exact Or.inr (Or.inr (Or.inl hq))
      · exact Or.inr (Or.inr (Or.inr hq))
    | nodeC b capv ps dv c0 c1 c2 c3 =>
      obtain ⟨-, -, hdv, -, hb0, hk0, hw0, hb1, hk1, hw1, hb2, hk2, hw2, hb3, hk3, hw3⟩ :=
        (wf_nodeC_iff b capv ps dv c0 c1 c2 c3).mp hw
      subst hdv
      have hcb : Rect.contains b p = true := hc
      have hcv : capv = 0 := hcap
      subst hcv
      rw [insertFuel_nodeC_full n b 0 ps c0 c1 c2 c3 p hcb hlen]
      have hcov := quadrant_cover b p
      rw [hcb] at hcov
      have hcov' : ((quadrant0 b).contains p || (quadrant1 b).contains p ||
          (quadrant2 b).contains p || (quadrant3 b).contains p) = true := hcov.symm
      simp only [Bool.or_eq_true] at hcov'
      have key : ∀ c : QTree, c.wf = true → c.cap = 0 →
          insertFuel n c p = none ∨
            (insertFuel n c p = some (c, false) ∧ c.boundary.contains p = false) := by
        intro c hwc hkc
        cases hq : c.boundary.contains p with
        | true => exact Or.inl (ihn c p hwc hkc hq)
        | false =>
          cases n with
          | zero => exact Or.inl rfl
          | succ m => exact Or.inr ⟨insert_not_contains m _ p hq, rfl⟩
      refine insertChildren_none n b 0 ps c0 c1 c2 c3 p (key c0 hw0 hk0) (key c1 hw1 hk1)
        (key c2 hw2 hk2) (key c3 hw3 hk3) ?_
      rw [hb0, hb1, hb2, hb3]
      rcases hcov' with ((hq | hq) | hq) | hq
      · exact Or.inl hq
      · exact Or.inr (Or.inl hq)
      · exact Or.inr (Or.inr (Or.inl hq))
      · exact Or.inr (Or.inr (Or.inr hq))

end Quaddy

namespace Quaddy

open QTree

theorem insertMany_post (ps : List Point) : ∀ (fuel : Nat) (t t' : QTree) (rs : List Bool),
    t.wf = true → insertMany fuel t ps = some (t', rs) →
    t'.wf = true ∧ t'.boundary = t.boundary ∧ t'.cap = t.cap ∧ structLE t t' = true := by
  induction ps with
  | nil =>
    intro fuel t t' rs hw h
    rw [insertMany] at h
    simp only [Option.some.injEq, Prod.mk.injEq] at h
    rw [← h.1]
    exact ⟨hw, rfl, rfl, structLE_refl t⟩
  | cons p ps ih =>
    intro fuel t t' rs hw h
    rw [insertMany] at h
    cases e1 : insertFuel fuel t p with
    | none => rw [e1] at h; simp at h
    | some v1 =>
    obtain ⟨t1, r⟩ := v1
    rw [e1] at h
    dsimp only at h
    obtain ⟨jw, jb, jc, js, -, -, -⟩ := insert_master fuel t p t1 r hw e1
    cases e2 : insertMany fuel t1 ps with
    | none => rw [e2] at h; simp at h
    | some v2 =>
    obtain ⟨t2, rs'⟩ := v2
    rw [e2] at h
    dsimp only at h
    simp only [Option.some.injEq, Prod.mk.injEq] at h
    obtain ⟨ht, -⟩ := h
    rw [← ht]
    obtain ⟨kw, kb, kc, ks⟩ := ih fuel t1 t2 rs' jw e2
    exact ⟨kw, kb.trans jb, kc.trans jc, structLE_trans _ _ _ js ks⟩

theorem reachable_wf (t : QTree) (h : Reachable t) : t.wf = true := by
  obtain ⟨b, capv, ps, fuel, rs, hbuild⟩ := h
  exact (insertMany_post ps fuel (new b capv) t rs (wf_new b capv) hbuild).1

theorem insertMany_build (ps : List Point) : ∀ (fuel : Nat) (t : QTree),
    t.wf = true → 1 ≤ t.cap → (∀ p ∈ ps, t.boundary.contains p = true) →
    t.height + ps.length + 2 ≤ fuel →
    ∃ t', insertMany fuel t ps = some (t', List.replicate ps.length true) ∧
      t'.wf = true ∧ t'.boundary = t.boundary ∧ t'.cap = t.cap ∧
      t'.height ≤ t.height + ps.length ∧ t'.allPoints.Perm (ps ++ t.allPoints) := by
  induction ps with
  | nil =>
    intro fuel t hw hcap hin hf
    exact ⟨t, by rw [insertMany]; simp, hw, rfl, rfl, by omega, by simp⟩
  | cons p ps ih =>
    intro fuel t hw hcap hin hf
    obtain ⟨t1, e1⟩ := insert_total fuel t p hw hcap (hin p (by simp))
      (by simp only [List.length_cons] at hf; omega)
    obtain ⟨jw, jb, jc, -, jperm, -, -⟩ := insert_master fuel t p t1 true hw e1
    have jh : t1.height ≤ t.height + 1 := insert_height fuel t p t1 true hw hcap e1
    obtain ⟨t2, e2, kw, kb, kc, kh, kperm⟩ := ih fuel t1 jw (by rw [jc]; exact hcap)
      (fun q hq => by rw [jb]; exact hin q (by simp [hq]))
      (by simp only [List.length_cons] at hf; omega)
    refine ⟨t2, ?_, kw, kb.trans jb, kc.trans jc, ?_, ?_⟩
    · rw [insertMany, e1]
      dsimp only
      rw [e2]
      rfl
    · simp only [List.length_cons]
      omega
    · have h1 : (ps ++ t1.allPoints).Perm (ps ++ (p :: t.allPoints)) :=
        (jperm rfl).append_left ps
      exact (kperm.trans h1).trans List.perm_middle

end Quaddy

namespace Quaddy

open QTree

theorem quad1_contains_eq (s : Rect) (p : Point) :
    Quad1.Rect.contains s p = Rect.contains s p := rfl

theorem quad1_intersects_eq (s rhs : Rect) :
    Quad1.Rect.intersects s rhs = Rect.intersects s rhs := rfl

theorem quad1_new_eq (b : Rect) (capv : Nat) : Quad1.QTree.new b capv = new b capv := rfl

theorem quad1_subdivide_eq (t : QTree) : Quad1.QTree.subdivide t = subdivide t := by
  cases t <;> rfl

theorem quad1_insertFuel_eq (fuel : Nat) :
    ∀ (t : QTree) (p : Point), Quad1.QTree.insertFuel fuel t p = insertFuel fuel t p := by
  induction fuel with
  | zero => intro t p; rfl
  | succ n ih =>
    intro t p
    simp only [Quad1.QTree.insertFuel, insertFuel, quad1_contains_eq, quad1_subdivide_eq, ih]

theorem quad1_insertMany_eq (ps : List Point) :
    ∀ (fuel : Nat) (t : QTree), Quad1.QTree.insertMany fuel t ps = insertMany fuel t ps := by
  induction ps with
  | nil => intro fuel t; rfl
  | cons p ps ih =>
    intro fuel t
    simp only [Quad1.QTree.insertMany, insertMany, quad1_insertFuel_eq, ih]

end Quaddy

namespace Quaddy

open QTree

theorem wf_len_le (t : QTree) (hw : t.wf = true) : t.points.length ≤ t.cap := by
  cases t with
  | node b capv ps dv => exact ((wf_node_iff b capv ps dv).mp hw).2.1
  | nodeC b capv ps dv c0 c1 c2 c3 =>
    exact ((wf_nodeC_iff b capv ps dv c0 c1 c2 c3).mp hw).2.1

theorem insertChildren_shape (n : Nat) (b : Rect) (capv : Nat) (ps : List Point)
    (c0 c1 c2 c3 : QTree) (p : Point) (t' : QTree) (r : Bool)
    (h : insertChildren n b capv ps c0 c1 c2 c3 p = some (t', r)) :
    ∃ k0 k1 k2 k3, t' = nodeC b capv ps true k0 k1 k2 k3 := by
  rw [insertChildren] at h
  cases e0 : insertFuel n c0 p with
  | none => rw [e0] at h; simp at h
  | some v0 =>
  obtain ⟨c0', r0⟩ := v0
  rw [e0] at h
  cases r0 with
  | true =>
    dsimp only at h
    simp only [Bool.false_eq_true, Bool.true_eq_false, if_true, if_false,
      Option.some.injEq, Prod.mk.injEq] at h
    exact ⟨c0', c1, c2, c3, h.1.symm⟩
  | false =>
    dsimp only at h
    simp only [Bool.false_eq_true, if_false] at h
    cases e1 : insertFuel n c1 p with
    | none => rw [e1] at h; simp at h
    | some v1 =>
    obtain ⟨c1', r1⟩ := v1
    rw [e1] at h
    cases r1 with
    | true =>
      dsimp only at h
      simp only [Bool.false_eq_true, Bool.true_eq_false, if_true, if_false,
        Option.some.injEq, Prod.mk.injEq] at h
      exact ⟨c0', c1', c2, c3, h.1.symm⟩
    | false =>
      dsimp only at h
      simp only [Bool.false_eq_true, if_false] at h
      cases e2 : insertFuel n c2 p with
      | none => rw [e2] at h; simp at h
      | some v2 =>
      obtain ⟨c2', r2⟩ := v2
      rw [e2] at h
      cases r2 with
      | true =>
        dsimp only at h
        simp only [Bool.false_eq_true, Bool.true_eq_false, if_true, if_false,
          Option.some.injEq, Prod.mk.injEq] at h
        exact ⟨c0', c1', c2', c3, h.1.symm⟩
      | false =>
        dsimp only at h
        simp only [Bool.false_eq_true, if_false] at h
        cases e3 : insertFuel n c3 p with
        | none => rw [e3] at h; simp at h
        | some v3 =>
        obtain ⟨c3', r3⟩ := v3
        rw [e3] at h
        dsimp only at h
        simp only [Option.some.injEq, Prod.mk.injEq] at h
        exact ⟨c0', c1', c2', c3', h.1.symm⟩

theorem circle_intersects_clamped (c : Circle) (region : Rect) (hr : 0 ≤ c.r) :
    Circle.intersects c region = true ↔
      clampedDistSq region.x region.y (region.w / 2) (region.h / 2) c.x c.y ≤
        c.r * c.r := by
  rw [Circle.intersects]
  simp only [clampedDistSq]
  by_cases h1 : |region.x - c.x| > c.r + region.w / 2 ∨ |region.y - c.y| > c.r + region.h / 2
  · rw [if_pos h1]
    simp only [Bool.false_eq_true, false_iff, not_le]
    rcases h1 with h1 | h1
    · have hge : (0:ℚ) ≤ |region.x - c.x| - region.w / 2 := by linarith
      rw [max_eq_left hge]
      have h2 : c.r < |region.x - c.x| - region.w / 2 := by linarith
      nlinarith [le_max_right (|region.y - c.y| - region.h / 2) (0:ℚ),
        sq_nonneg (max (|region.y - c.y| - region.h / 2) (0:ℚ))]
    · have hge : (0:ℚ) ≤ |region.y - c.y| - region.h / 2 := by linarith
      rw [max_eq_left hge]
      have h2 : c.r < |region.y - c.y| - region.h / 2 := by linarith
      nlinarith [le_max_right (|region.x - c.x| - region.w / 2) (0:ℚ),
        sq_nonneg (max (|region.x - c.x| - region.w / 2) (0:ℚ))]
  · rw [if_neg h1]
    push_neg at h1
    obtain ⟨hx, hy⟩ := h1
    by_cases h2 : |region.x - c.x| ≤ region.w / 2 ∨ |region.y - c.y| ≤ region.h / 2
    · rw [if_pos h2]
      simp only [true_iff]
      rcases h2 with h2 | h2
      · rw [max_eq_right (by linarith)]
        have hm : max (|region.y - c.y| - region.h / 2) 0 ≤ c.r :=
          max_le (by linarith) hr
        have hm0 : (0:ℚ) ≤ max (|region.y - c.y| - region.h / 2) 0 := le_max_right _ _
        nlinarith
      · rw [max_eq_right (show |region.y - c.y| - region.h / 2 ≤ 0 by linarith)]
        have hm : max (|region.x - c.x| - region.w / 2) 0 ≤ c.r :=
          max_le (by linarith) hr
        have hm0 : (0:ℚ) ≤ max (|region.x - c.x| - region.w / 2) 0 := le_max_right _ _
        nlinarith
    · rw [if_neg h2]
      push_neg at h2
      obtain ⟨hx2, hy2⟩ := h2
      rw [max_eq_left (by linarith), max_eq_left (by linarith)]
      simp

end Quaddy

namespace Quaddy

open QTree

/-- C1: Conservation — for every finite multiset of points inside the root
boundary, inserted one by one into `new(boundary, capacity)` with
`capacity ≥ 1`, every insert returns `true` and `query` over the root
boundary returns exactly that multiset of points: no duplication, no loss. -/
theorem conservation (b : Rect) (capv : Nat) (ps : List Point) (hcap : 1 ≤ capv)
    (hin : ∀ p ∈ ps, b.contains p = true) :
    ∃ t res visits,
      insertMany (ps.length + 2) (new b capv) ps =
        some (t, List.replicate ps.length true) ∧
      t.query b [] 0 = some (res, visits) ∧
      (res : Multiset Point) = (ps : Multiset Point) := by
  obtain ⟨t, hbuild, hw, hb, hc, hh, hperm⟩ :=
    insertMany_build ps (ps.length + 2) (new b capv) (wf_new b capv) hcap hin
      (by simp [new, height])
  have hperm' : t.allPoints.Perm ps := by
    have h0 : (new b capv).allPoints = [] := rfl
    rw [h0, List.append_nil] at hperm
    exact hperm
  obtain ⟨visits, hq⟩ := query_eq t b hw [] 0
  have hfilter : t.allPoints.filter (fun p => b.contains p) = t.allPoints := by
    rw [List.filter_eq_self]
    intro q hq2
    simpa using hin q (hperm'.mem_iff.mp hq2)
  refine ⟨t, t.allPoints, visits, hbuild, ?_, ?_⟩
  · rw [hq, hfilter]
    rfl
  · exact Multiset.coe_eq_coe.mpr hperm'

theorem conservation_witness :
    (1 ≤ 1 ∧ ∀ p ∈ [(⟨1, 1⟩ : Point), ⟨2, 2⟩], Rect.contains ⟨0, 0, 4, 4⟩ p = true) ∧
    (∃ t res visits,
      insertMany ([(⟨1, 1⟩ : Point), ⟨2, 2⟩].length + 2) (new ⟨0, 0, 4, 4⟩ 1)
          [⟨1, 1⟩, ⟨2, 2⟩] =
        some (t, List.replicate [(⟨1, 1⟩ : Point), ⟨2, 2⟩].length true) ∧
      t.query ⟨0, 0, 4, 4⟩ [] 0 = some (res, visits) ∧
      (res : Multiset Point) = ([(⟨1, 1⟩ : Point), ⟨2, 2⟩] : Multiset Point)) :=
  ⟨⟨le_rfl, by with_unfolding_all decide⟩,
    conservation ⟨0, 0, 4, 4⟩ 1 [⟨1, 1⟩, ⟨2, 2⟩] le_rfl (by with_unfolding_all decide)⟩

/-- C2 (counterexample): the claim's reading — `Circle::intersects` as the
clamped-distance test for the rectangle with half-extents `region.w` and
`region.h` — is false: for the unit circle at the origin and the rectangle
centered at `(2, 0)` with half-extents `1, 1`, the two tests disagree. -/
theorem circle_intersects_claim_false :
    Circle.intersects ⟨0, 0, 1⟩ ⟨2, 0, 1, 1⟩ = false ∧
      claimedCircleRectTest ⟨0, 0, 1⟩ ⟨2, 0, 1, 1⟩ = true := by
  constructor <;> with_unfolding_all decide

/-- C2 (amended): for a non-negative radius, `Circle::intersects(region)`
returns `true` iff the squared clamped distance from the circle's center to
the rectangle with center `(region.x, region.y)` and half-extents
`region.w / 2` and `region.h / 2` is at most the squared radius: the code
halves the stored extents, treating `region.w`/`region.h` as full extents
rather than the `Rect` data model's half-extents. -/
theorem circle_intersects_correct (c : Circle) (region : Rect) (hr : 0 ≤ c.r) :
    Circle.intersects c region = true ↔
      clampedDistSq region.x region.y (region.w / 2) (region.h / 2) c.x c.y ≤
        c.r * c.r :=
  circle_intersects_clamped c region hr

theorem circle_intersects_correct_witness :
    (0 ≤ (1 : ℚ)) ∧
    (Circle.intersects ⟨0, 0, 1⟩ ⟨2, 0, 1, 1⟩ = true ↔
      clampedDistSq 2 0 (1 / 2) (1 / 2) 0 0 ≤ 1 * 1) :=
  ⟨by norm_num, circle_intersects_correct ⟨0, 0, 1⟩ ⟨2, 0, 1, 1⟩ (by norm_num)⟩

/-- C3: the code has no depth cutoff; with `capacity = 0` an in-boundary
insert recurses forever.  In the fuel-indexed embedding, the call returns
`none` (has not terminated) for every fuel: the concrete program input
`QTree::new(Rect::new(0,0,1,1), 0)` followed by `insert(Point::new(0,0))`
never returns, contradicting the claimed termination guarantee. -/
theorem insert_cap0_diverges :
    ∀ fuel : Nat, insertFuel fuel (new ⟨0, 0, 1, 1⟩ 0) ⟨0, 0⟩ = none := fun fuel =>
  insert_cap0 fuel (new ⟨0, 0, 1, 1⟩ 0) ⟨0, 0⟩ (wf_new _ _) rfl
    (by with_unfolding_all decide)

/-- C4: after `subdivide` on any node, the four children's boundaries are
pairwise disjoint under the half-open containment rule — no point is in two
children — their union is exactly the set of points the parent's boundary
contains, and they are four equal quadrants (half the parent's extents). -/
theorem subdivide_partition (t : QTree) (p : Point) :
    ∃ c0 c1 c2 c3, (t.subdivide).children = some (c0, c1, c2, c3) ∧
      (t.subdivide).divided = true ∧
      (c0.boundary.w = t.boundary.w / 2 ∧ c0.boundary.h = t.boundary.h / 2 ∧
       c1.boundary.w = t.boundary.w / 2 ∧ c1.boundary.h = t.boundary.h / 2 ∧
       c2.boundary.w = t.boundary.w / 2 ∧ c2.boundary.h = t.boundary.h / 2 ∧
       c3.boundary.w = t.boundary.w / 2 ∧ c3.boundary.h = t.boundary.h / 2) ∧
      ((c0.boundary.contains p && c1.boundary.contains p) = false ∧
       (c0.boundary.contains p && c2.boundary.contains p) = false ∧
       (c0.boundary.contains p && c3.boundary.contains p) = false ∧
       (c1.boundary.contains p && c2.boundary.contains p) = false ∧
       (c1.boundary.contains p && c3.boundary.contains p) = false ∧
       (c2.boundary.contains p && c3.boundary.contains p) = false) ∧
      t.boundary.contains p =
        (c0.boundary.contains p || c1.boundary.contains p ||
         c2.boundary.contains p || c3.boundary.contains p) := by
  cases t with
  | node b capv ps dv =>
    exact ⟨new (quadrant0 b) capv, new (quadrant1 b) capv, new (quadrant2 b) capv,
      new (quadrant3 b) capv, rfl, rfl,
      ⟨rfl, rfl, rfl, rfl, rfl, rfl, rfl, rfl⟩,
      quadrant_disjoint b p, quadrant_cover b p⟩
  | nodeC b capv ps dv c0 c1 c2 c3 =>
    exact ⟨new (quadrant0 b) capv, new (quadrant1 b) capv, new (quadrant2 b) capv,
      new (quadrant3 b) capv, rfl, rfl,
      ⟨rfl, rfl, rfl, rfl, rfl, rfl, rfl, rfl⟩,
      quadrant_disjoint b p, quadrant_cover b p⟩

end Quaddy

namespace Quaddy

open QTree

/-- C5: the effective per-node capacity is exactly `cap` (the `<` policy):
for an in-boundary point, insert appends to this node's own buffer and
returns `true` iff `len(points) < cap` held at call time; when the buffer is
full the own buffer is unchanged, the buffer held exactly `cap` points, and
the node ends up subdivided; and the own buffer never exceeds `cap`. -/
theorem capacity_policy (fuel : Nat) (t : QTree) (p : Point) (t' : QTree) (r : Bool)
    (hw : t.wf = true) (hc : t.boundary.contains p = true)
    (h : insertFuel (fuel + 1) t p = some (t', r)) :
    (t.points.length < t.cap →
      t' = t.pushPoint p ∧ t'.points = t.points ++ [p] ∧ r = true) ∧
    (¬ t.points.length < t.cap →
      t'.points = t.points ∧ t.points.length = t.cap ∧ t'.divided = true) ∧
    t'.points.length ≤ t'.cap := by
  have hx : ¬ t.boundary.contains p = false := by rw [hc]; simp
  refine ⟨?_, ?_, ?_⟩
  · intro hlen
    rw [insertFuel, if_neg hx, if_pos hlen] at h
    simp only [Option.some.injEq, Prod.mk.injEq] at h
    obtain ⟨h1, h2⟩ := h
    refine ⟨h1.symm, ?_, h2.symm⟩
    rw [← h1]
    cases t <;> rfl
  · intro hlen
    have hlen' : t.points.length = t.cap := le_antisymm (wf_len_le t hw) (not_lt.mp hlen)
    cases t with
    | node b capv ps dv =>
      obtain ⟨-, -, hdv⟩ := (wf_node_iff b capv ps dv).mp hw
      subst hdv
      rw [insertFuel_node_full fuel b capv ps p hc hlen] at h
      obtain ⟨k0, k1, k2, k3, hsh⟩ :=
        insertChildren_shape fuel b capv ps _ _ _ _ p t' r h
      subst hsh
      exact ⟨rfl, hlen', rfl⟩
    | nodeC b capv ps dv c0 c1 c2 c3 =>
      have hdv : dv = true := ((wf_nodeC_iff b capv ps dv c0 c1 c2 c3).mp hw).2.2.1
      subst hdv
      rw [insertFuel_nodeC_full fuel b capv ps c0 c1 c2 c3 p hc hlen] at h
      obtain ⟨k0, k1, k2, k3, hsh⟩ :=
        insertChildren_shape fuel b capv ps c0 c1 c2 c3 p t' r h
      subst hsh
      exact ⟨rfl, hlen', rfl⟩
  · exact wf_len_le t' (insert_master (fuel + 1) t p t' r hw h).1

theorem capacity_policy_witness :
    ((new ⟨0, 0, 4, 4⟩ 2).wf = true ∧ Rect.contains ⟨0, 0, 4, 4⟩ ⟨1, 1⟩ = true ∧
      insertFuel 1 (new ⟨0, 0, 4, 4⟩ 2) ⟨1, 1⟩ =
        some (node ⟨0, 0, 4, 4⟩ 2 [⟨1, 1⟩] false, true)) ∧
    (((new ⟨0, 0, 4, 4⟩ 2).points.length < (new ⟨0, 0, 4, 4⟩ 2).cap →
      node ⟨0, 0, 4, 4⟩ 2 [⟨1, 1⟩] false = (new ⟨0, 0, 4, 4⟩ 2).pushPoint ⟨1, 1⟩ ∧
        (node ⟨0, 0, 4, 4⟩ 2 [⟨1, 1⟩] false).points =
          (new ⟨0, 0, 4, 4⟩ 2).points ++ [⟨1, 1⟩] ∧ true = true) ∧
    (¬ (new ⟨0, 0, 4, 4⟩ 2).points.length < (new ⟨0, 0, 4, 4⟩ 2).cap →
      (node ⟨0, 0, 4, 4⟩ 2 [⟨1, 1⟩] false).points = (new ⟨0, 0, 4, 4⟩ 2).points ∧
        (new ⟨0, 0, 4, 4⟩ 2).points.length = (new ⟨0, 0, 4, 4⟩ 2).cap ∧
        (node ⟨0, 0, 4, 4⟩ 2 [⟨1, 1⟩] false).divided = true) ∧
    (node ⟨0, 0, 4, 4⟩ 2 [⟨1, 1⟩] false).points.length ≤
      (node ⟨0, 0, 4, 4⟩ 2 [⟨1, 1⟩] false).cap) :=
  ⟨⟨by with_unfolding_all decide, by with_unfolding_all decide, by with_unfolding_all decide⟩,
    capacity_policy 0 (new ⟨0, 0, 4, 4⟩ 2) ⟨1, 1⟩ (node ⟨0, 0, 4, 4⟩ 2 [⟨1, 1⟩] false) true
      (by with_unfolding_all decide) (by with_unfolding_all decide)
      (by with_unfolding_all decide)⟩

/-- C6: for every tree state, fuel and point outside the node's boundary
(half-open rule), `insert` returns `false` and leaves the entire tree
unchanged — no point appended anywhere, no subdivision, no child allocated. -/
theorem insert_out_of_bounds (fuel : Nat) (t : QTree) (p : Point)
    (hc : t.boundary.contains p = false) :
    insertFuel (fuel + 1) t p = some (t, false) :=
  insert_not_contains fuel t p hc

theorem insert_out_of_bounds_witness :
    Rect.contains ⟨0, 0, 1, 1⟩ ⟨5, 5⟩ = false ∧
      insertFuel 1 (new ⟨0, 0, 1, 1⟩ 2) ⟨5, 5⟩ = some (new ⟨0, 0, 1, 1⟩ 2, false) :=
  ⟨by with_unfolding_all decide,
    insert_out_of_bounds 0 (new ⟨0, 0, 1, 1⟩ 2) ⟨5, 5⟩ (by with_unfolding_all decide)⟩

/-- C7: with exact arithmetic and `capacity ≥ 1`, on every tree reachable by
inserts from `new` and for every point inside the node's boundary, `insert`
terminates and returns `true`: the defensive final `return false` branch is
unreachable under the partition invariant. -/
theorem insert_in_bounds_true (t : QTree) (p : Point) (hr : Reachable t)
    (hcap : 1 ≤ t.cap) (hc : t.boundary.contains p = true) :
    ∃ t', insertFuel (t.height + 2) t p = some (t', true) :=
  insert_total (t.height + 2) t p (reachable_wf t hr) hcap hc le_rfl

theorem insert_in_bounds_true_witness :
    (Reachable (new ⟨0, 0, 4, 4⟩ 1) ∧ 1 ≤ (new ⟨0, 0, 4, 4⟩ 1).cap ∧
      Rect.contains ⟨0, 0, 4, 4⟩ ⟨1, 1⟩ = true) ∧
    (∃ t', insertFuel ((new ⟨0, 0, 4, 4⟩ 1).height + 2) (new ⟨0, 0, 4, 4⟩ 1) ⟨1, 1⟩ =
      some (t', true)) :=
  ⟨⟨⟨⟨0, 0, 4, 4⟩, 1, [], 0, [], rfl⟩, le_rfl, by with_unfolding_all decide⟩,
    insert_in_bounds_true (new ⟨0, 0, 4, 4⟩ 1) ⟨1, 1⟩ ⟨⟨0, 0, 4, 4⟩, 1, [], 0, [], rfl⟩
      le_rfl (by with_unfolding_all decide)⟩

/-- C8: each node's Leaf-to-Internal transition is one-way: along every
sequence of `insert` calls on a well-formed tree (queries are pure and do not
mutate), the boundary and capacity of every node are preserved, a set
`divided` flag is never cleared, and existing children are never removed or
replaced — captured by the structural-monotonicity order `structLE`. -/
theorem insert_preserves_structure (fuel : Nat) (t : QTree) (ps : List Point)
    (t' : QTree) (rs : List Bool) (hw : t.wf = true)
    (h : insertMany fuel t ps = some (t', rs)) : structLE t t' = true :=
  (insertMany_post ps fuel t t' rs hw h).2.2.2

theorem insert_preserves_structure_witness :
    ((new ⟨0, 0, 4, 4⟩ 1).wf = true ∧
      insertMany 3 (new ⟨0, 0, 4, 4⟩ 1) [⟨1, 1⟩] =
        some (node ⟨0, 0, 4, 4⟩ 1 [⟨1, 1⟩] false, [true])) ∧
    structLE (new ⟨0, 0, 4, 4⟩ 1) (node ⟨0, 0, 4, 4⟩ 1 [⟨1, 1⟩] false) = true :=
  ⟨⟨by with_unfolding_all decide, by with_unfolding_all decide⟩,
    insert_preserves_structure 3 (new ⟨0, 0, 4, 4⟩ 1) [⟨1, 1⟩]
      (node ⟨0, 0, 4, 4⟩ 1 [⟨1, 1⟩] false) [true] (by with_unfolding_all decide)
      (by with_unfolding_all decide)⟩

end Quaddy

namespace Quaddy

open QTree

/-- C9: implicit invariant — in every tree reachable from `new` by inserts,
a node whose `divided` flag is set holds exactly `cap` points in its own
buffer, no insert ever appends to an already-divided node's own buffer, and
therefore the code's append guard `len(points) < cap` (which does not test
leafness) is equivalent to the spec's `leaf ∧ len(points) < capacity`. -/
theorem divided_invariant :
    (∀ (b : Rect) (capv : Nat), (new b capv).wf = true) ∧
    (∀ (fuel : Nat) (t : QTree) (p : Point) (t' : QTree) (r : Bool), t.wf = true →
      insertFuel fuel t p = some (t', r) → t'.wf = true) ∧
    (∀ t : QTree, t.wf = true → t.divided = true → t.points.length = t.cap) ∧
    (∀ (fuel : Nat) (t : QTree) (p : Point) (t' : QTree) (r : Bool), t.wf = true →
      t.divided = true → insertFuel fuel t p = some (t', r) → t'.points = t.points) ∧
    (∀ t : QTree, t.wf = true →
      ((t.divided = false ∧ t.points.length < t.cap) ↔ t.points.length < t.cap)) := by
  have hdivlen : ∀ t : QTree, t.wf = true → t.divided = true → t.points.length = t.cap := by
    intro t hw hdv
    cases t with
    | node b capv ps dv =>
      obtain ⟨-, -, hd⟩ := (wf_node_iff b capv ps dv).mp hw
      rw [divided] at hdv
      rw [hd] at hdv
      exact absurd hdv (by simp)
    | nodeC b capv ps dv c0 c1 c2 c3 =>
      exact ((wf_nodeC_iff b capv ps dv c0 c1 c2 c3).mp hw).2.2.2.1
  refine ⟨fun b capv => wf_new b capv,
    fun fuel t p t' r hw h => (insert_master fuel t p t' r hw h).1, hdivlen, ?_, ?_⟩
  · intro fuel t p t' r hw hdv h
    cases fuel with
    | zero => simp [insertFuel] at h
    | succ n =>
      by_cases hc : t.boundary.contains p = false
      · rw [insert_not_contains n t p hc] at h
        simp only [Option.some.injEq, Prod.mk.injEq] at h
        rw [← h.1]
      · have hc' : t.boundary.contains p = true := by
          cases hq : t.boundary.contains p
          · exact absurd hq hc
          · rfl
        have hlen : ¬ t.points.length < t.cap := by
          rw [hdivlen t hw hdv]
          omega
        cases t with
        | node b capv ps dv =>
          obtain ⟨-, -, hd⟩ := (wf_node_iff b capv ps dv).mp hw
          rw [divided] at hdv
          rw [hd] at hdv
          exact absurd hdv (by simp)
        | nodeC b capv ps dv c0 c1 c2 c3 =>
          have hd : dv = true := ((wf_nodeC_iff b capv ps dv c0 c1 c2 c3).mp hw).2.2.1
          subst hd
          rw [insertFuel_nodeC_full n b capv ps c0 c1 c2 c3 p hc' hlen] at h
          obtain ⟨k0, k1, k2, k3, hsh⟩ :=
            insertChildren_shape n b capv ps c0 c1 c2 c3 p t' r h
          subst hsh
          rfl
  · intro t hw
    constructor
    · exact fun hh => hh.2
    · intro hh
      refine ⟨?_, hh⟩
      cases hq : t.divided
      · rfl
      · rw [hdivlen t hw hq] at hh
        omega

theorem divided_invariant_witness :
    (sampleDivided.wf = true ∧ sampleDivided.divided = true ∧
      insertFuel 3 sampleDivided ⟨1, 1⟩ = some (sampleDivided2, true)) ∧
    sampleDivided2.wf = true ∧
    sampleDivided.points.length = sampleDivided.cap ∧
    sampleDivided2.points = sampleDivided.points :=
  ⟨⟨by with_unfolding_all decide, by with_unfolding_all decide,
      by with_unfolding_all decide⟩,
    divided_invariant.2.1 3 sampleDivided ⟨1, 1⟩ sampleDivided2 true
      (by with_unfolding_all decide) (by with_unfolding_all decide),
    divided_invariant.2.2.1 sampleDivided (by with_unfolding_all decide)
      (by with_unfolding_all decide),
    divided_invariant.2.2.2.1 3 sampleDivided ⟨1, 1⟩ sampleDivided2 true
      (by with_unfolding_all decide) (by with_unfolding_all decide)
      (by with_unfolding_all decide)⟩

/-- C10: the quadtree cores of quad1.rs and quad2.rs are behaviorally
identical: `Rect::contains`, `Rect::intersects`, `QTree::new`,
`QTree::subdivide` and `QTree::insert` agree on every input, hence any
sequence of inserts from any tree produces the same tree structure and the
same sequence of insert return values in both variants. -/
theorem variant_equivalence :
    (∀ (s : Rect) (p : Point), Quad1.Rect.contains s p = Rect.contains s p) ∧
    (∀ (s rhs : Rect), Quad1.Rect.intersects s rhs = Rect.intersects s rhs) ∧
    (∀ (b : Rect) (capv : Nat), Quad1.QTree.new b capv = new b capv) ∧
    (∀ t : QTree, Quad1.QTree.subdivide t = subdivide t) ∧
    (∀ (fuel : Nat) (t : QTree) (p : Point),
      Quad1.QTree.insertFuel fuel t p = insertFuel fuel t p) ∧
    (∀ (fuel : Nat) (t : QTree) (ps : List Point),
      Quad1.QTree.insertMany fuel t ps = insertMany fuel t ps) :=
  ⟨quad1_contains_eq, quad1_intersects_eq, quad1_new_eq, quad1_subdivide_eq,
    fun fuel t p => quad1_insertFuel_eq fuel t p,
    fun fuel t ps => quad1_insertMany_eq ps fuel t⟩

end Quaddy
